import Mathlib

/-!
Shallow embedding of `src/indexed.py` (package `indexed`): a persistent
indexed file made of fixed-size record slots with a singly linked free
list, payload chains across slots, and a serialized key index.

The byte-level file is modelled as a list of slots (`records`); the
in-memory attributes of the Python class `IndexedFile` become fields of
the Lean structure `IndexedFile`.  The bytes of the on-disk header and of
the on-disk index section are kept abstractly in `diskHeader` /
`diskIndex`, updated exactly where the source calls `_write_header` /
`_write_index`.  Bytes are modelled as `Nat`; unbounded loops of the
source (`allocate`'s grow-and-retry loop, chain walks) take an explicit
fuel argument and return `Option`, with fuel sufficiency proved for
well-formed states.
-/

namespace Indexed

/-- Module constant `INTSIZE = 4` of `indexed.py`. -/
def INTSIZE : Nat := 4

/-- Module constant `MAGIC_NUMBER = 0xd8fd2372`. -/
def MAGIC_NUMBER : Nat := 0xd8fd2372

/-- Module constant `NO_MORE_RECORDS = 0xffffffff`, the chain sentinel. -/
def NO_MORE_RECORDS : Nat := 0xffffffff

/-- Module constant `RECORDS_OFFSET = 4 * INTSIZE`, start of the record area. -/
def RECORDS_OFFSET : Nat := 4 * INTSIZE

/-- One record slot: its first `INTSIZE` bytes on disk are the next-slot
pointer (`next`), the remaining `recordsize - INTSIZE` bytes are the data
region (`data`, a list of byte values). -/
structure Slot where
  next : Nat
  data : List Nat
deriving DecidableEq, Repr

/-- An index entry as stored in `IndexedFile.index`: key, first record of
the chain, and payload byte length (Python `self.index[key] = (idx, datasize)`). -/
abbrev Entry := String × Nat × Nat

/-- State of a Python `IndexedFile` handle together with the underlying
file.  `records` is the record area (slot `i` of the source lives at byte
offset `record_number(i)`); `diskHeader` holds the four header integers as
last written by `_write_header`; `diskIndex` holds the index section as
last written by `_write_index` (flattened integer/byte tokens). -/
structure IndexedFile where
  recordsize : Nat
  current_size : Nat
  index_offset : Nat
  first_free : Nat
  index : List Entry
  records : List Slot
  diskHeader : Nat × Nat × Nat × Nat
  diskIndex : List Nat
deriving DecidableEq, Repr

/-- Number of record slots, as the source computes it:
`num_records = self.current_size // self.recordsize`. -/
def numRecords (s : IndexedFile) : Nat := s.current_size / s.recordsize

/-- Read the slot at index `i` (out-of-range reads, which raise in Python,
return a junk slot; all theorems restrict to in-range accesses). -/
def getSlot (recs : List Slot) (i : Nat) : Slot :=
  recs.getD i { next := NO_MORE_RECORDS, data := [] }

/-- Write the next-pointer of slot `i`
(`self.fd.seek(self.record_number(i)); self._writeint(v)`). -/
def setNext (recs : List Slot) (i v : Nat) : List Slot :=
  recs.set i { getSlot recs i with next := v }

/-- Write `chunk` at the start of slot `i`'s data region
(`self.fd.seek(self.record_number(i)+INTSIZE); self.fd.write(chunk)`);
bytes of the region beyond the chunk keep their previous value. -/
def writeData (recs : List Slot) (i : Nat) (chunk : List Nat) : List Slot :=
  recs.set i { getSlot recs i with
               data := chunk ++ (getSlot recs i).data.drop chunk.length }

/-- Model of `_write_header`: serialize the four header fields at offset 0. -/
def writeHeader (s : IndexedFile) : IndexedFile :=
  { s with diskHeader := (MAGIC_NUMBER, s.recordsize, s.index_offset, s.first_free) }

/-- Modelled from the spec: the key codec (`pickle.dumps` in the source,
which is outside this repository) is a pluggable capability
`encode(key) -> bytes`; here keys are strings, encoded as a nonempty byte
list (a leading tag byte, as pickle emits a protocol opcode first, then
the character codes). -/
def encKey (k : String) : List Nat :=
  128 :: k.data.map Char.toNat

/-- Modelled from the spec: key codec decode direction
(`pickle.loads` in the source); inverse of `encKey`. -/
def decKey (l : List Nat) : String :=
  String.mk ((l.drop 1).map Char.ofNat)

/-- Serialization of the index section as written by `_write_index`: for
each entry `(key_len, key_bytes, first_record, datasize)`, then the `0`
terminator. -/
def encodeIndex : List Entry → List Nat
  | [] => [0]
  | (k, idx, size) :: rest =>
      ((encKey k).length :: encKey k) ++ idx :: size :: encodeIndex rest

/-- Parse of the index section as read by `_read_index`: read a key size;
stop on 0; otherwise read the key bytes and the two integers and recurse.
Malformed data (truncation) yields `none` (Python raises). -/
def decodeIndex : Nat → List Nat → Option (List Entry)
  | 0, _ => none
  | _ + 1, [] => none
  | fuel + 1, ksize :: rest =>
      if ksize = 0 then some []
      else
        match rest.drop ksize with
        | idx :: size :: rest' =>
            (decodeIndex fuel rest').map fun es =>
              (decKey (rest.take ksize), idx, size) :: es
        | _ => none

/-- Model of `_write_index`: rewrite the full index section from the
in-memory mapping, then the terminator. -/
def writeIndexD (s : IndexedFile) : IndexedFile :=
  { s with diskIndex := encodeIndex s.index }

/-- Python `for rn in range(start, start+count): slot rn .next := rn+1`,
the loop body of `init_free_list`. -/
def linkRange : List Slot → Nat → Nat → List Slot
  | recs, _, 0 => recs
  | recs, start, k + 1 => linkRange (setNext recs start (start + 1)) (start + 1) k

/-- Model of `init_free_list(start)`: link slots `[start, num_records)`
consecutively, then write the sentinel into the last record.  (With zero
records the source would seek to a negative offset; the model's
out-of-range write is a no-op, and all theorems assume at least one slot.) -/
def init_free_list (recs : List Slot) (start : Nat) : List Slot :=
  setNext (linkRange recs start (recs.length - start)) (recs.length - 1) NO_MORE_RECORDS

/-- Model of `IndexedFile(name, "c", recordsize, num_recs_hint)` followed by
`create()`: clamp the record size, compute the sizes (note the source uses
the *unclamped* `recordsize` for `current_size`), zero-fill the record
area, write the header, build the free list, and write an empty index. -/
def createFile (recordsize num_recs_hint : Nat) : IndexedFile :=
  let rs := max recordsize (2 * INTSIZE)
  let cs := num_recs_hint * recordsize
  let n := cs / rs
  let recs0 : List Slot :=
    List.replicate n { next := 0, data := List.replicate (rs - INTSIZE) 0 }
  writeIndexD (writeHeader
    { recordsize := rs
      current_size := cs
      index_offset := cs + RECORDS_OFFSET
      first_free := 0
      index := []
      records := init_free_list recs0 0
      diskHeader := (0, 0, 0, 0)
      diskIndex := [] })

/-- Model of `close()`: `_write_index` then release the descriptor. -/
def closeFile (s : IndexedFile) : IndexedFile :=
  writeIndexD s

/-- Model of `open()` on the file underlying `s`: `_read_header` (checking
the magic number) then `_read_index`, rebuilding the in-memory fields from
the persisted ones; the record area is untouched. -/
def openFile (s : IndexedFile) : Option IndexedFile :=
  let (magic, rs, idxoffs, fstfree) := s.diskHeader
  if magic = MAGIC_NUMBER then
    (decodeIndex (s.diskIndex.length + 1) s.diskIndex).map fun idx =>
      { s with
        recordsize := rs
        index_offset := idxoffs
        first_free := fstfree
        current_size := idxoffs - RECORDS_OFFSET
        index := idx }
  else none

/-- The collecting loop of `_allocate_records`: walk the free chain from
`first`, gathering up to `count` slot numbers, stopping early at the
sentinel. -/
def allocWalk (recs : List Slot) : Nat → Nat → List Nat
  | _, 0 => []
  | first, k + 1 =>
      if first = NO_MORE_RECORDS then []
      else first :: allocWalk recs (getSlot recs first).next k

/-- Model of `_allocate_records(numrecords)`: collect slots from the free
chain; `none` models the `"Out of space"` `IndexedFileError` when fewer
than `numrecords` are free (and also the source's `IndexError` on
`indices[-1]` when `numrecords = 0`, a call that never happens).  On
success, cut the chain after the last collected slot, advance
`first_free`, persist the header, and return the slot list. -/
def allocate_records (s : IndexedFile) (numrecords : Nat) :
    Option (List Nat × IndexedFile) :=
  let indices := allocWalk s.records s.first_free numrecords
  if indices.length < numrecords then none
  else
    match indices.getLast? with
    | none => none
    | some last =>
        let new_first_free := (getSlot s.records last).next
        let recs1 := setNext s.records last NO_MORE_RECORDS
        some (indices,
          writeHeader { s with records := recs1, first_free := new_first_free })

/-- Model of `last_in_chain(start)` (via `record_list`): follow
next-pointers from `start` until a slot whose pointer is the sentinel and
return that slot; fueled, `none` if fuel runs out. -/
def last_in_chain (recs : List Slot) : Nat → Nat → Option Nat
  | 0, _ => none
  | fuel + 1, idx =>
      if (getSlot recs idx).next = NO_MORE_RECORDS then some idx
      else last_in_chain recs fuel (getSlot recs idx).next

/-- Model of `record_list(start)` (materialized): the list of slot numbers
of the chain starting at `start`; fueled. -/
def record_list (recs : List Slot) : Nat → Nat → Option (List Nat)
  | 0, idx => if idx = NO_MORE_RECORDS then some [] else none
  | fuel + 1, idx =>
      if idx = NO_MORE_RECORDS then some []
      else (record_list recs fuel (getSlot recs idx).next).map (idx :: ·)

/-- Model of `resize()`: double `current_size`, move the index offset,
extend the record area (the source's `truncate` zero-fills; stale index
bytes that end up inside new slots are never observed), link the new range
as free slots, splice it after the existing free chain (or make it the
free chain if there was none), then `_write_index` and `_write_header`. -/
def resize (s : IndexedFile) : IndexedFile :=
  let num_records := s.current_size / s.recordsize
  let new_size := 2 * s.current_size
  let new_num := new_size / s.recordsize
  let recs0 := s.records ++
    List.replicate (new_num - s.records.length)
      { next := 0, data := List.replicate (s.recordsize - INTSIZE) 0 }
  let recs1 := init_free_list recs0 num_records
  let s1 := { s with
    index_offset := new_size + RECORDS_OFFSET
    current_size := new_size
    records := recs1 }
  let s2 :=
    if s1.first_free ≠ NO_MORE_RECORDS then
      match last_in_chain s1.records s1.records.length s1.first_free with
      | some idx => { s1 with records := setNext s1.records idx num_records }
      | none => s1
    else { s1 with first_free := num_records }
  writeHeader (writeIndexD s2)

/-- Model of `allocate(numrecords)`: retry `_allocate_records`, calling
`resize()` on `"Out of space"`; the source's unbounded `while` loop is
given explicit fuel (the number of attempts). -/
def allocate : IndexedFile → Nat → Nat → Option (List Nat × IndexedFile)
  | _, _, 0 => none
  | s, numrecords, fuel + 1 =>
      match allocate_records s numrecords with
      | some res => some res
      | none => allocate (resize s) numrecords fuel

/-- Python `key in self.index` (`__contains__`). -/
def containsKey (index : List Entry) (k : String) : Bool :=
  index.any (fun e => e.1 = k)

/-- Python `self.index[key]` lookup. -/
def lookupIdx (index : List Entry) (k : String) : Option (Nat × Nat) :=
  (index.find? (fun e => e.1 = k)).map (·.2)

/-- Python `del self.index[key]`: remove the entry, keeping order. -/
def eraseKey (index : List Entry) (k : String) : List Entry :=
  index.filter (fun e => ¬ e.1 = k)

/-- Python `self.index[key] = v`: replace in place if present, else append
(dict insertion-order semantics). -/
def setKey : List Entry → String → Nat × Nat → List Entry
  | [], k, v => [(k, v)]
  | (k', v') :: rest, k, v =>
      if k' = k then (k', v) :: rest else (k', v') :: setKey rest k v

/-- Model of `__delitem__(key)`: `none` when the key is absent (Python
`KeyError` before any mutation); otherwise drop the index entry, flush the
index, splice the released chain in front of the free list (the chain tail
found by `last_in_chain` gets the old `first_free`), and persist the
header. -/
def delitem (s : IndexedFile) (key : String) : Option IndexedFile :=
  match lookupIdx s.index key with
  | none => none
  | some (first_record, _) =>
      let s1 := writeIndexD { s with index := eraseKey s.index key }
      match last_in_chain s1.records s1.records.length first_record with
      | none => none
      | some idx =>
          some (writeHeader
            { s1 with
              records := setNext s1.records idx s1.first_free
              first_free := first_record })

/-- The payload-writing loop of `__setitem__`: for each allocated slot, in
order, write the next `usable` bytes of the payload into its data region. -/
def writeChunks : List Slot → List Nat → List Nat → Nat → List Slot
  | recs, [], _, _ => recs
  | recs, i :: rest, bytesval, usable =>
      writeChunks (writeData recs i (bytesval.take usable)) rest
        (bytesval.drop usable) usable

/-- The slot-count computation of `__setitem__`:
`records_needed = datasize // usable_rec_size + 1`. -/
def recordsNeeded (datasize usable_rec_size : Nat) : Nat :=
  datasize / usable_rec_size + 1

/-- The body of `__setitem__` after the possible deletion of an existing
key: allocate `records_needed` slots (fuel `records_needed + 1` suffices,
see the allocator theorems), write the payload chunks, record the entry,
flush the index. -/
def setitemRaw (s : IndexedFile) (key : String) (bytesval : List Nat) :
    Option IndexedFile :=
  let datasize := bytesval.length
  let usable_rec_size := s.recordsize - INTSIZE
  let records_needed := recordsNeeded datasize usable_rec_size
  match allocate s records_needed (records_needed + 1) with
  | none => none
  | some (free_list, s1) =>
      match free_list.head? with
      | none => none
      | some first_record =>
          some (writeIndexD
            { s1 with
              records := writeChunks s1.records free_list bytesval usable_rec_size
              index := setKey s1.index key (first_record, datasize) })

/-- Model of `__setitem__(key, bytesval)`: `if key in self: del self[key]`,
then the allocation/write/flush body. -/
def setitem (s : IndexedFile) (key : String) (bytesval : List Nat) :
    Option IndexedFile :=
  if containsKey s.index key then
    (delitem s key).bind fun s0 => setitemRaw s0 key bytesval
  else setitemRaw s key bytesval

/-- Model of `retrieve(start)` (materialized): follow the chain from
`start`, yielding each slot's `usable_rec_size`-byte data region; fueled. -/
def retrieve (recs : List Slot) (usable : Nat) : Nat → Nat → Option (List (List Nat))
  | 0, idx => if idx = NO_MORE_RECORDS then some [] else none
  | fuel + 1, idx =>
      if idx = NO_MORE_RECORDS then some []
      else
        (retrieve recs usable fuel (getSlot recs idx).next).map
          (fun rest => (getSlot recs idx).data.take usable :: rest)

/-- Model of `__getitem__(key)`: look up the entry (`none` models the
`KeyError` on an absent key), concatenate the retrieved chunks, truncate
to the stored payload length. -/
def getitem (s : IndexedFile) (key : String) : Option (List Nat) :=
  match lookupIdx s.index key with
  | none => none
  | some (first_record, datasize) =>
      match retrieve s.records (s.recordsize - INTSIZE)
          s.records.length first_record with
      | none => none
      | some chunks => some (chunks.flatten.take datasize)

/-- Leading-match test over character lists: does `p` occur at the head of `s`. -/
def leadMatch : List Char → List Char → Bool
  | [], _ => true
  | _ :: _, [] => false
  | a :: l, b :: m => a = b && leadMatch l m

/-- Contiguous-substring test over character lists, the semantics of
Python's `x in s` for strings. -/
def occursIn : List Char → List Char → Bool
  | p, [] => leadMatch p []
  | p, b :: m => leadMatch p (b :: m) || occursIn p m

/-- The constructor's mode validation, line 51 of the source:
`mode not in "rc"` raises; so validation passes exactly when `mode` is a
contiguous substring of `"rc"`. -/
def modeCheck (mode : String) : Bool :=
  occursIn mode.data "rc".data

/-- Outcome of the constructor `IndexedFile.__init__`, distinguishing the
two `IndexedFileError` raise sites of the source (bad mode, line 52;
missing file in read mode, line 60). -/
inductive InitOutcome where
  | modeError : InitOutcome
  | notFoundError : InitOutcome
  | opened : InitOutcome
  | created (f : IndexedFile) : InitOutcome
  | bare (index : List Entry) : InitOutcome
deriving DecidableEq

/-- Model of `__init__(name, mode, recordsize, num_recs_hint)`:
validate the mode by the substring test; in mode `"r"` open if the file
exists, else fail; in mode `"c"` create; any other mode that passes
validation (`""` and `"rc"`) runs neither branch and yields a bare object
holding only the empty in-memory index and no file descriptor. -/
def initFile (mode : String) (fileExists : Bool) (recordsize num_recs_hint : Nat) :
    InitOutcome :=
  if ¬ modeCheck mode then .modeError
  else if mode = "r" then
    if fileExists then .opened else .notFoundError
  else if mode = "c" then .created (createFile recordsize num_recs_hint)
  else .bare []

/-! Basic lemmas about the slot-array primitives. -/

theorem length_setNext (recs : List Slot) (i v : Nat) :
    (setNext recs i v).length = recs.length := by
  simp [setNext]

theorem length_writeData (recs : List Slot) (i : Nat) (c : List Nat) :
    (writeData recs i c).length = recs.length := by
  simp [writeData]

theorem getSlot_set_self {recs : List Slot} {i : Nat} (h : i < recs.length) (v : Slot) :
    getSlot (recs.set i v) i = v := by
  simp [getSlot, List.getD_eq_getElem?_getD, List.getElem?_set_self', h]

theorem getSlot_set_ne {recs : List Slot} {i j : Nat} (h : i ≠ j) (v : Slot) :
    getSlot (recs.set i v) j = getSlot recs j := by
  simp [getSlot, List.getD_eq_getElem?_getD, List.getElem?_set_ne h]

theorem getSlot_setNext_self {recs : List Slot} {i : Nat} (h : i < recs.length) (v : Nat) :
    getSlot (setNext recs i v) i = { getSlot recs i with next := v } :=
  getSlot_set_self h _

theorem getSlot_setNext_ne (recs : List Slot) {i j : Nat} (h : i ≠ j) (v : Nat) :
    getSlot (setNext recs i v) j = getSlot recs j :=
  getSlot_set_ne h _

theorem getSlot_writeData_ne (recs : List Slot) {i j : Nat} (h : i ≠ j) (c : List Nat) :
    getSlot (writeData recs i c) j = getSlot recs j :=
  getSlot_set_ne h _

theorem getSlot_writeData_self {recs : List Slot} {i : Nat} (h : i < recs.length)
    (c : List Nat) :
    getSlot (writeData recs i c) i =
      { getSlot recs i with data := c ++ (getSlot recs i).data.drop c.length } :=
  getSlot_set_self h _

theorem next_writeData (recs : List Slot) (i : Nat) (c : List Nat) (j : Nat) :
    (getSlot (writeData recs i c) j).next = (getSlot recs j).next := by
  rcases eq_or_ne i j with rfl | h
  · by_cases hl : i < recs.length
    · rw [getSlot_writeData_self hl]
    · rw [writeData, List.set_eq_of_length_le (by omega)]
  · rw [getSlot_writeData_ne recs h]

theorem data_setNext (recs : List Slot) (i v j : Nat) :
    (getSlot (setNext recs i v) j).data = (getSlot recs j).data := by
  rcases eq_or_ne i j with rfl | h
  · by_cases hl : i < recs.length
    · rw [getSlot_setNext_self hl]
    · rw [setNext, List.set_eq_of_length_le (by omega)]
  · rw [getSlot_setNext_ne recs h]

theorem getSlot_append_left {recs : List Slot} (ext : List Slot) {i : Nat}
    (h : i < recs.length) :
    getSlot (recs ++ ext) i = getSlot recs i := by
  simp [getSlot, List.getD_eq_getElem?_getD, List.getElem?_append_left h]

/-! The chain predicate: `Chain recs h l` says that following next-pointers
from slot `h` visits exactly the slots of `l` in order and ends at the
sentinel, all of them in range. -/

inductive Chain (recs : List Slot) : Nat → List Nat → Prop where
  | nil : Chain recs NO_MORE_RECORDS []
  | cons {i : Nat} {l : List Nat} (hlt : i < recs.length) (hne : i ≠ NO_MORE_RECORDS)
      (hrest : Chain recs (getSlot recs i).next l) : Chain recs i (i :: l)

theorem Chain.eq_sentinel {recs : List Slot} {h : Nat} (hc : Chain recs h []) :
    h = NO_MORE_RECORDS := by
  cases hc; rfl

theorem Chain.head_cases {recs : List Slot} {h i : Nat} {l : List Nat}
    (hc : Chain recs h (i :: l)) :
    h = i ∧ i < recs.length ∧ i ≠ NO_MORE_RECORDS ∧
      Chain recs (getSlot recs i).next l := by
  cases hc with
  | cons hlt hne hrest => exact ⟨rfl, hlt, hne, hrest⟩

theorem Chain.unique {recs : List Slot} {h : Nat} {l₁ l₂ : List Nat}
    (h₁ : Chain recs h l₁) (h₂ : Chain recs h l₂) : l₁ = l₂ := by
  induction h₁ generalizing l₂ with
  | nil =>
      cases h₂ with
      | nil => rfl
      | cons hlt hne hrest => exact absurd rfl hne
  | cons hlt hne hrest ih =>
      cases h₂ with
      | nil => exact absurd rfl hne
      | cons hlt' hne' hrest' => rw [ih hrest']

theorem Chain.mem_lt {recs : List Slot} {h : Nat} {l : List Nat}
    (hc : Chain recs h l) : ∀ x ∈ l, x < recs.length := by
  induction hc with
  | nil => simp
  | cons hlt hne hrest ih =>
      intro x hx
      rcases List.mem_cons.mp hx with rfl | hx
      · exact hlt
      · exact ih x hx

theorem Chain.mem_ne {recs : List Slot} {h : Nat} {l : List Nat}
    (hc : Chain recs h l) : ∀ x ∈ l, x ≠ NO_MORE_RECORDS := by
  induction hc with
  | nil => simp
  | cons hlt hne hrest ih =>
      intro x hx
      rcases List.mem_cons.mp hx with rfl | hx
      · exact hne
      · exact ih x hx

theorem Chain.suffix {recs : List Slot} {h i : Nat} {a b : List Nat}
    (hc : Chain recs h (a ++ i :: b)) : Chain recs i (i :: b) := by
  induction a generalizing h with
  | nil =>
      cases hc with
      | cons hlt hne hrest => exact Chain.cons hlt hne hrest
  | cons a' as ih =>
      cases hc with
      | cons hlt hne hrest => exact ih hrest

theorem Chain.nodup {recs : List Slot} {h : Nat} {l : List Nat}
    (hc : Chain recs h l) : l.Nodup := by
  induction hc with
  | nil => simp
  | cons hlt hne hrest ih =>
      rename_i i l'
      rw [List.nodup_cons]
      refine ⟨?_, ih⟩
      intro hmem
      obtain ⟨a, b, rfl⟩ := List.append_of_mem hmem
      have h1 : Chain recs i (i :: b) := hrest.suffix
      have h2 : Chain recs i (i :: (a ++ i :: b)) := Chain.cons hlt hne hrest
      have := h2.unique (Chain.cons (h1.head_cases.2.1) hne h1.head_cases.2.2.2)
      have hlen := congrArg List.length this
      simp at hlen
      omega

theorem Chain.frame {recs recs' : List Slot} {h : Nat} {l : List Nat}
    (hlen : recs.length ≤ recs'.length) (hc : Chain recs h l)
    (hnext : ∀ x ∈ l, (getSlot recs' x).next = (getSlot recs x).next) :
    Chain recs' h l := by
  induction hc with
  | nil => exact .nil
  | cons hlt hne hrest ih =>
      refine .cons (lt_of_lt_of_le hlt hlen) hne ?_
      rw [hnext _ (List.mem_cons_self _ _)]
      exact ih fun x hx => hnext x (List.mem_cons_of_mem _ hx)

theorem Chain.setNext_not_mem {recs : List Slot} {h j v : Nat} {l : List Nat}
    (hj : j ∉ l) (hc : Chain recs h l) : Chain (setNext recs j v) h l :=
  hc.frame (by rw [length_setNext]) fun x hx => by
    have hne : j ≠ x := fun e => hj (by rw [e]; exact hx)
    rw [getSlot_setNext_ne recs hne]

theorem Chain.append_ext {recs ext : List Slot} {h : Nat} {l : List Nat}
    (hc : Chain recs h l) : Chain (recs ++ ext) h l :=
  hc.frame (by simp) fun x hx => by
    rw [getSlot_append_left ext (hc.mem_lt x hx)]

/-- Cutting a chain: writing the sentinel into the last slot of a nonempty
prefix `t` of a chain turns `t` into a chain of its own (the unlink step of
`_allocate_records`). -/
theorem Chain.close {recs : List Slot} {h : Nat} {t d : List Nat}
    (hc : Chain recs h (t ++ d)) (ht : t ≠ []) (hnd : (t ++ d).Nodup) :
    Chain (setNext recs (t.getLast ht) NO_MORE_RECORDS) h t := by
  induction t generalizing h with
  | nil => exact absurd rfl ht
  | cons a t' ih =>
      cases hc with
      | cons hlt hne hrest =>
        by_cases h' : t' = []
        · subst h'
          refine Chain.cons (by rw [length_setNext]; exact hlt) hne ?_
          have : ([a].getLast ht) = a := by simp
          rw [this, getSlot_setNext_self hlt]
          exact .nil
        · have hglast : ((a :: t').getLast ht) = t'.getLast h' := List.getLast_cons h'
          have hmem : t'.getLast h' ∈ t' := List.getLast_mem h'
          have hnd' : a ∉ t' ++ d ∧ (t' ++ d).Nodup := by
            simpa [List.nodup_cons] using hnd
          have hane : t'.getLast h' ≠ a := by
            intro e
            exact hnd'.1 (List.mem_append_left d (e ▸ hmem))
          refine Chain.cons (by rw [length_setNext]; exact hlt) hne ?_
          rw [hglast, getSlot_setNext_ne recs hane]
          exact ih hrest h' hnd'.2

/-- Splicing: writing `f` into the last slot of the chain `c` and taking
`f` to be the head of the chain `fl` produces the chain `c ++ fl` (the
release step of `__delitem__`, and the splice of `resize`). -/
theorem Chain.glue {recs : List Slot} {h f : Nat} {c fl : List Nat}
    (hc : Chain recs h c) (hcne : c ≠ []) (hf : Chain recs f fl)
    (hdisj : ∀ x ∈ c, x ∉ fl) (hnd : c.Nodup) :
    Chain (setNext recs (c.getLast hcne) f) h (c ++ fl) := by
  induction c generalizing h with
  | nil => exact absurd rfl hcne
  | cons a c' ih =>
      cases hc with
      | cons hlt hne hrest =>
        by_cases h' : c' = []
        · subst h'
          refine Chain.cons (by rw [length_setNext]; exact hlt) hne ?_
          have hga : ([a].getLast hcne) = a := by simp
          rw [hga, getSlot_setNext_self hlt]
          exact hf.setNext_not_mem (hdisj a (by simp))
        · have hglast : ((a :: c').getLast hcne) = c'.getLast h' := List.getLast_cons h'
          have hmem : c'.getLast h' ∈ c' := List.getLast_mem h'
          have hane : c'.getLast h' ≠ a := by
            intro e
            rw [List.nodup_cons] at hnd
            exact hnd.1 (e ▸ hmem)
          refine Chain.cons (by rw [length_setNext]; exact hlt) hne ?_
          rw [hglast, getSlot_setNext_ne recs hane]
          exact ih hrest h'
            (fun x hx => hdisj x (List.mem_cons_of_mem _ hx))
            (by rw [List.nodup_cons] at hnd; exact hnd.2)

/-- A consecutively linked range of slots whose last slot carries the
sentinel forms a chain (the result of `init_free_list`). -/
theorem chain_range' (recs : List Slot) (n a0 : Nat)
    (hn : n ≤ recs.length) (hNMR : n ≤ NO_MORE_RECORDS)
    (hlink : ∀ i, a0 ≤ i → i + 1 < n → (getSlot recs i).next = i + 1)
    (hlast : (getSlot recs (n - 1)).next = NO_MORE_RECORDS) :
    ∀ k a, a0 ≤ a → a + k = n → 1 ≤ k → Chain recs a (List.range' a k) := by
  intro k
  induction k with
  | zero => intro a _ _ h; omega
  | succ k' ih =>
      intro a ha0 ha _
      rw [List.range'_succ]
      refine Chain.cons (by omega) (by omega) ?_
      rcases Nat.eq_zero_or_pos k' with hk | hk
      · subst hk
        have hae : a = n - 1 := by omega
        rw [hae, hlast]
        exact .nil
      · rw [hlink a ha0 (by omega)]
        exact ih (a + 1) (by omega) (by omega) hk

/-! Correspondence between the fueled executable walks and `Chain`. -/

theorem allocWalk_eq_take {recs : List Slot} {h : Nat} {fl : List Nat}
    (hc : Chain recs h fl) : ∀ n, allocWalk recs h n = fl.take n := by
  induction hc with
  | nil =>
      intro n
      cases n <;> simp [allocWalk]
  | cons hlt hne hrest ih =>
      intro n
      cases n with
      | zero => simp [allocWalk]
      | succ k => simp [allocWalk, hne, ih]

theorem last_in_chain_eq {recs : List Slot} {h : Nat} {l : List Nat}
    (hc : Chain recs h l) (hne : l ≠ []) :
    ∀ fuel, l.length ≤ fuel → last_in_chain recs fuel h = some (l.getLast hne) := by
  induction hc with
  | nil => exact absurd rfl hne
  | cons hlt hne' hrest ih =>
      rename_i i l'
      intro fuel hf
      cases fuel with
      | zero => simp at hf
      | succ f =>
          by_cases hl : l' = []
          · subst hl
            have hsent := hrest.eq_sentinel
            simp [last_in_chain, hsent]
          · obtain ⟨x, xs, hx⟩ := List.exists_cons_of_ne_nil hl
            have hh := (hx ▸ hrest).head_cases
            have hhead : (getSlot recs i).next ≠ NO_MORE_RECORDS := by
              rw [hh.1]; exact hh.2.2.1
            rw [last_in_chain, if_neg hhead, List.getLast_cons hl]
            exact ih hl f (by simp at hf; omega)

theorem record_list_eq {recs : List Slot} {h : Nat} {l : List Nat}
    (hc : Chain recs h l) : ∀ fuel, l.length ≤ fuel →
    record_list recs fuel h = some l := by
  induction hc with
  | nil =>
      intro fuel _
      cases fuel <;> simp [record_list]
  | cons hlt hne hrest ih =>
      intro fuel hf
      cases fuel with
      | zero => simp at hf
      | succ f =>
          rw [record_list, if_neg hne, ih f (by simp at hf; omega)]
          rfl

theorem retrieve_eq {recs : List Slot} (u : Nat) {h : Nat} {l : List Nat}
    (hc : Chain recs h l) : ∀ fuel, l.length ≤ fuel →
    retrieve recs u fuel h =
      some (l.map fun i => (getSlot recs i).data.take u) := by
  induction hc with
  | nil =>
      intro fuel _
      cases fuel <;> simp [retrieve]
  | cons hlt hne hrest ih =>
      intro fuel hf
      cases fuel with
      | zero => simp at hf
      | succ f =>
          rw [retrieve, if_neg hne, ih f (by simp at hf; omega)]
          rfl

/-! Pointwise description of `init_free_list`. -/

theorem length_linkRange : ∀ (k : Nat) (recs : List Slot) (start : Nat),
    (linkRange recs start k).length = recs.length := by
  intro k
  induction k with
  | zero => intro recs start; rfl
  | succ k' ih =>
      intro recs start
      rw [linkRange, ih, length_setNext]

theorem getSlot_linkRange : ∀ (k : Nat) (recs : List Slot) (start : Nat),
    start + k ≤ recs.length → ∀ i,
    getSlot (linkRange recs start k) i =
      if start ≤ i ∧ i < start + k then { getSlot recs i with next := i + 1 }
      else getSlot recs i := by
  intro k
  induction k with
  | zero =>
      intro recs start _ i
      rw [linkRange, if_neg (by omega)]
  | succ k' ih =>
      intro recs start h i
      rw [linkRange, ih _ _ (by rw [length_setNext]; omega)]
      by_cases h1 : start + 1 ≤ i ∧ i < start + 1 + k'
      · rw [if_pos h1, if_pos (by omega), getSlot_setNext_ne recs (by omega)]
      · rw [if_neg h1]
        by_cases h2 : i = start
        · subst h2
          rw [getSlot_setNext_self (by omega), if_pos (by omega)]
        · rw [getSlot_setNext_ne recs (fun e => h2 e.symm), if_neg (by omega)]

theorem length_init_free_list (recs : List Slot) (start : Nat) :
    (init_free_list recs start).length = recs.length := by
  rw [init_free_list, length_setNext, length_linkRange]

theorem getSlot_init_free_list (recs : List Slot) (start : Nat)
    (hstart : start < recs.length) (i : Nat) :
    getSlot (init_free_list recs start) i =
      if i = recs.length - 1 then { getSlot recs i with next := NO_MORE_RECORDS }
      else if start ≤ i ∧ i < recs.length then { getSlot recs i with next := i + 1 }
      else getSlot recs i := by
  rw [init_free_list]
  have hlr := getSlot_linkRange (recs.length - start) recs start (by omega)
  by_cases hi : i = recs.length - 1
  · subst hi
    rw [getSlot_setNext_self (by rw [length_linkRange]; omega), hlr,
      if_pos (by omega)]
    simp
  · rw [getSlot_setNext_ne _ (fun e => hi e.symm), hlr]
    by_cases hc : start ≤ i ∧ i < start + (recs.length - start)
    · rw [if_pos hc, if_neg hi, if_pos (by omega)]
    · rw [if_neg hc, if_neg hi, if_neg (by omega)]

/-! Lemmas about `writeChunks`: it changes only the data regions of the
slots it is given, never a next-pointer or the array length. -/

theorem length_writeChunks : ∀ (idxs : List Nat) (recs : List Slot)
    (b : List Nat) (u : Nat), (writeChunks recs idxs b u).length = recs.length := by
  intro idxs
  induction idxs with
  | nil => intro recs b u; rfl
  | cons i rest ih =>
      intro recs b u
      rw [writeChunks, ih, length_writeData]

theorem next_writeChunks : ∀ (idxs : List Nat) (recs : List Slot)
    (b : List Nat) (u x : Nat),
    (getSlot (writeChunks recs idxs b u) x).next = (getSlot recs x).next := by
  intro idxs
  induction idxs with
  | nil => intro recs b u x; rfl
  | cons i rest ih =>
      intro recs b u x
      rw [writeChunks, ih, next_writeData]

theorem getSlot_writeChunks_not_mem : ∀ (idxs : List Nat) (recs : List Slot)
    (b : List Nat) (u x : Nat), x ∉ idxs →
    getSlot (writeChunks recs idxs b u) x = getSlot recs x := by
  intro idxs
  induction idxs with
  | nil => intro recs b u x _; rfl
  | cons i rest ih =>
      intro recs b u x hx
      have hix : i ≠ x := fun e => hx (by rw [← e]; exact List.mem_cons_self _ _)
      rw [writeChunks, ih _ _ _ _ (fun h => hx (List.mem_cons_of_mem _ h)),
        getSlot_writeData_ne recs hix]

theorem Chain.writeChunks_frame {recs : List Slot} {h : Nat} {l idxs b : List Nat}
    {u : Nat} (hc : Chain recs h l) : Chain (writeChunks recs idxs b u) h l :=
  hc.frame (by rw [length_writeChunks]) fun x _ => by rw [next_writeChunks]

/-- Payload reassembly: writing a payload across the data regions of a
duplicate-free slot list of sufficient total capacity and reading the
regions back in order reconstructs the payload exactly. -/
theorem writeChunks_read : ∀ (idxs : List Nat) (recs : List Slot) (b : List Nat)
    (u : Nat), idxs.Nodup → (∀ i ∈ idxs, i < recs.length) →
    (∀ i ∈ idxs, (getSlot recs i).data.length = u) →
    b.length ≤ idxs.length * u → 1 ≤ u →
    ((idxs.map fun i => (getSlot (writeChunks recs idxs b u) i).data.take u).flatten).take
        b.length = b := by
  intro idxs
  induction idxs with
  | nil =>
      intro recs b u _ _ _ hlen _
      have hb : b = [] := by
        have h0 : b.length = 0 := by simpa using hlen
        exact List.eq_nil_of_length_eq_zero h0
      subst hb
      simp
  | cons i rest ih =>
      intro recs b u hnd hlt hdl hlen hu
      have hirest : i ∉ rest := (List.nodup_cons.mp hnd).1
      have hdi : (getSlot (writeChunks recs (i :: rest) b u) i).data =
          b.take u ++ (getSlot recs i).data.drop (b.take u).length := by
        rw [writeChunks, getSlot_writeChunks_not_mem rest _ _ _ _ hirest,
          getSlot_writeData_self (hlt i (List.mem_cons_self _ _))]
      have hdlu : (getSlot recs i).data.length = u := hdl i (List.mem_cons_self _ _)
      have hdilen : (getSlot (writeChunks recs (i :: rest) b u) i).data.length = u := by
        rw [hdi]
        simp
        omega
      rw [List.map_cons, List.flatten_cons]
      by_cases hb : b.length ≤ u
      · have htb : b.take u = b := List.take_of_length_le hb
        rw [List.take_append_of_le_length]
        · rw [List.take_take, min_eq_left hb, hdi, htb,
            List.take_append_of_le_length (by simp), List.take_of_length_le le_rfl]
        · rw [List.length_take, hdilen]
          omega
      · have htb : (b.take u).length = u := by rw [List.length_take]; omega
        have hdi' : (getSlot (writeChunks recs (i :: rest) b u) i).data = b.take u := by
          rw [hdi, htb, List.drop_of_length_le (le_of_eq hdlu), List.append_nil]
        have htake1 : ((getSlot (writeChunks recs (i :: rest) b u) i).data).take u
            = b.take u := by
          rw [hdi', List.take_of_length_le (le_of_eq htb)]
        rw [htake1, List.take_append_eq_append_take, htb,
          List.take_of_length_le (by rw [htb]; omega)]
        have hrest : ∀ j ∈ rest,
            getSlot (writeChunks recs (i :: rest) b u) j =
            getSlot (writeChunks (writeData recs i (b.take u)) rest (b.drop u) u) j := by
          intro j _
          rw [writeChunks]
        rw [List.map_congr_left fun j hj => by rw [hrest j hj]]
        have hih := ih (writeData recs i (b.take u)) (b.drop u) u
          (List.nodup_cons.mp hnd).2
          (fun j hj => by rw [length_writeData]; exact hlt j (List.mem_cons_of_mem _ hj))
          (fun j hj => by
            have hij : i ≠ j := fun e => hirest (by rw [e]; exact hj)
            rw [getSlot_writeData_ne recs hij]
            exact hdl j (List.mem_cons_of_mem _ hj))
          (by
            have hexp : (rest.length + 1) * u = rest.length * u + u := by ring
            rw [List.length_cons, hexp] at hlen
            simp only [List.length_drop]
            omega)
          hu
        have hdlen : (List.drop u b).length = b.length - u := by simp
        rw [← hdlen, hih, List.take_append_drop]

/-! Well-formedness of a handle: the structural header equations, slot
shape, and the partition of the slots into the free chain and the chains
of the index entries. -/

/-- Each index entry owns a nonempty chain; `cs` lists them in order. -/
def EntryChains (s : IndexedFile) (cs : List (List Nat)) : Prop :=
  List.Forall₂ (fun (e : Entry) c => Chain s.records e.2.1 c ∧ c ≠ []) s.index cs

/-- Allocator partition with a detached extra chain (`extra = []` at
quiescent points; during `__setitem__` the freshly allocated slots are
detached): free chain, entry chains and the extra cover each slot exactly
once. -/
def PartWith (s : IndexedFile) (extra : List Nat) : Prop :=
  ∃ fl cs, Chain s.records s.first_free fl ∧ EntryChains s cs ∧
    (fl ++ (extra ++ cs.flatten)).Perm (List.range s.records.length)

/-- Well-formed handle state (established by `createFile`, preserved by
every public operation). -/
structure WF (s : IndexedFile) : Prop where
  rs8 : 8 ≤ s.recordsize
  size_eq : s.current_size = s.records.length * s.recordsize
  io_eq : s.index_offset = s.current_size + RECORDS_OFFSET
  pos : 1 ≤ s.records.length
  bound : s.records.length < NO_MORE_RECORDS
  data_len : ∀ i < s.records.length,
    (getSlot s.records i).data.length = s.recordsize - INTSIZE
  hdr : s.diskHeader = (MAGIC_NUMBER, s.recordsize, s.index_offset, s.first_free)
  idx_sync : s.diskIndex = encodeIndex s.index
  keys_nodup : (s.index.map Prod.fst).Nodup
  part : PartWith s []

theorem WF.numRecords_eq {s : IndexedFile} (h : WF s) :
    numRecords s = s.records.length := by
  rw [numRecords, h.size_eq, Nat.mul_div_cancel _ (by have := h.rs8; omega)]

theorem getSlot_replicate {n i : Nat} (h : i < n) (z : Slot) :
    getSlot (List.replicate n z) i = z := by
  simp [getSlot, List.getD_eq_getElem?_getD, List.getElem?_replicate, h]

theorem getSlot_append_replicate {recs : List Slot} {n i : Nat} (z : Slot)
    (h1 : recs.length ≤ i) (h2 : i < recs.length + n) :
    getSlot (recs ++ List.replicate n z) i = z := by
  rw [getSlot, List.getD_eq_getElem?_getD, List.getElem?_append_right h1,
    List.getElem?_replicate, if_pos (by omega)]
  rfl

/-- Explicit form of `createFile` when the requested record size is not
clamped. -/
theorem createFile_eq (rs hint : Nat) (h8 : 8 ≤ rs) :
    createFile rs hint =
      { recordsize := rs
        current_size := hint * rs
        index_offset := hint * rs + RECORDS_OFFSET
        first_free := 0
        index := []
        records := init_free_list
          (List.replicate hint { next := 0, data := List.replicate (rs - INTSIZE) 0 }) 0
        diskHeader := (MAGIC_NUMBER, rs, hint * rs + RECORDS_OFFSET, 0)
        diskIndex := [0] } := by
  have hmax : max rs (2 * INTSIZE) = rs := Nat.max_eq_left (by rw [INTSIZE]; omega)
  have hdiv : hint * rs / rs = hint := Nat.mul_div_cancel _ (by omega)
  simp [createFile, writeHeader, writeIndexD, encodeIndex, hmax, hdiv]

theorem wf_create {rs hint : Nat} (h8 : 8 ≤ rs) (h1 : 1 ≤ hint)
    (hb : hint < NO_MORE_RECORDS) : WF (createFile rs hint) := by
  rw [createFile_eq rs hint h8]
  set z : Slot := { next := 0, data := List.replicate (rs - INTSIZE) 0 } with hz
  have hlen : (init_free_list (List.replicate hint z) 0).length = hint := by
    rw [length_init_free_list, List.length_replicate]
  have hget := fun i =>
    getSlot_init_free_list (List.replicate hint z) 0
      (by rw [List.length_replicate]; omega) i
  refine ⟨h8, ?_, rfl, ?_, ?_, ?_, rfl, rfl, ?_, ?_⟩
  · simp [hlen]
  · simp [hlen, h1]
  · simp [hlen, hb]
  · intro i hi
    rw [hlen] at hi
    have := hget i
    rw [List.length_replicate] at this
    rw [this]
    by_cases hc1 : i = hint - 1
    · rw [if_pos hc1]
      simp [hz, getSlot_replicate (show i < hint by omega) z]
    · rw [if_neg hc1, if_pos (by omega)]
      simp [hz, getSlot_replicate hi z]
  · simp [EntryChains]
  · refine ⟨List.range' 0 hint, [], ?_, ?_, ?_⟩
    · have hchain := chain_range' (init_free_list (List.replicate hint z) 0)
        hint 0 (by omega) (by omega)
        (fun i _ hi1 => by
          have := hget i
          rw [List.length_replicate] at this
          rw [this, if_neg (by omega), if_pos (by omega)])
        (by
          have := hget (hint - 1)
          rw [List.length_replicate] at this
          rw [this, if_pos rfl])
        hint 0 (by omega) (by omega) h1
      simpa [hlen] using hchain
    · simp [EntryChains]
    · simp [hlen, List.range_eq_range']

/-! Helper lemmas for the partition. -/

theorem forall₂_chain_frame {recs recs' : List Slot} :
    ∀ {index : List Entry} {cs : List (List Nat)},
    List.Forall₂ (fun (e : Entry) c => Chain recs e.2.1 c ∧ c ≠ []) index cs →
    recs.length ≤ recs'.length →
    (∀ x ∈ cs.flatten, (getSlot recs' x).next = (getSlot recs x).next) →
    List.Forall₂ (fun (e : Entry) c => Chain recs' e.2.1 c ∧ c ≠ []) index cs := by
  intro index cs h hlen hnext
  induction h with
  | nil => exact .nil
  | cons he ht ih =>
      rw [List.flatten_cons] at hnext
      refine .cons ⟨he.1.frame hlen ?_, he.2⟩ ?_
      · intro x hx
        exact hnext x (List.mem_append_left _ hx)
      · exact ih fun x hx => hnext x (List.mem_append_right _ hx)

theorem EntryChains.frameChains {s : IndexedFile} {cs : List (List Nat)}
    (h : EntryChains s cs) {recs' : List Slot} (hlen : s.records.length ≤ recs'.length)
    (hnext : ∀ x ∈ cs.flatten, (getSlot recs' x).next = (getSlot s.records x).next) :
    List.Forall₂ (fun (e : Entry) c => Chain recs' e.2.1 c ∧ c ≠ []) s.index cs :=
  forall₂_chain_frame h hlen hnext

theorem lookup_chain_aux {recs : List Slot} {k : String} {p : Nat × Nat} :
    ∀ {index : List Entry} {cs : List (List Nat)},
    List.Forall₂ (fun (e : Entry) c => Chain recs e.2.1 c ∧ c ≠ []) index cs →
    lookupIdx index k = some p →
    ∃ c, Chain recs p.1 c ∧ c ≠ [] ∧ ∀ x ∈ c, x ∈ cs.flatten := by
  intro index cs h
  induction h with
  | nil => intro hl; simp [lookupIdx] at hl
  | cons he ht ih =>
      rename_i e c index' cs'
      intro hl
      rw [lookupIdx, List.find?_cons] at hl
      by_cases hk : e.1 = k
      · simp [hk] at hl
        refine ⟨c, ?_, he.2, ?_⟩
        · rw [← hl]
          exact he.1
        · intro x hx
          rw [List.flatten_cons]
          exact List.mem_append_left _ hx
      · simp only [hk, decide_False] at hl
        obtain ⟨c', h1, h2, h3⟩ := ih hl
        refine ⟨c', h1, h2, fun x hx => ?_⟩
        rw [List.flatten_cons]
        exact List.mem_append_right _ (h3 x hx)

theorem lookup_chain {s : IndexedFile} {cs : List (List Nat)} {k : String}
    {p : Nat × Nat} (h : EntryChains s cs) (hl : lookupIdx s.index k = some p) :
    ∃ c, Chain s.records p.1 c ∧ c ≠ [] ∧ ∀ x ∈ c, x ∈ cs.flatten :=
  lookup_chain_aux h hl

/-- The workhorse description of `resize` on a well-formed state: field
equations, preservation of old slots, the new free chain, and the entry
chains. -/
theorem resize_core {s : IndexedFile} (hwf : WF s)
    (h2 : 2 * s.records.length < NO_MORE_RECORDS)
    {fl : List Nat} {cs : List (List Nat)}
    (hfl : Chain s.records s.first_free fl) (hcs : EntryChains s cs)
    (hperm : (fl ++ cs.flatten).Perm (List.range s.records.length)) :
    (resize s).recordsize = s.recordsize ∧
    (resize s).index = s.index ∧
    (resize s).records.length = 2 * s.records.length ∧
    (resize s).current_size = 2 * s.records.length * s.recordsize ∧
    (resize s).index_offset = (resize s).current_size + RECORDS_OFFSET ∧
    (resize s).diskHeader =
      (MAGIC_NUMBER, (resize s).recordsize, (resize s).index_offset,
        (resize s).first_free) ∧
    (resize s).diskIndex = encodeIndex s.index ∧
    (∀ i, i < s.records.length →
      (getSlot (resize s).records i).data = (getSlot s.records i).data) ∧
    (∀ i, s.records.length ≤ i → i < 2 * s.records.length →
      (getSlot (resize s).records i).data = List.replicate (s.recordsize - INTSIZE) 0) ∧
    (∀ i, i < s.records.length → (∀ hne : fl ≠ [], i ≠ fl.getLast hne) →
      (getSlot (resize s).records i).next = (getSlot s.records i).next) ∧
    Chain (resize s).records (resize s).first_free
      (fl ++ List.range' s.records.length s.records.length) ∧
    List.Forall₂ (fun (e : Entry) c => Chain (resize s).records e.2.1 c ∧ c ≠ [])
      s.index cs ∧
    ((fl ++ List.range' s.records.length s.records.length) ++ cs.flatten).Perm
      (List.range (2 * s.records.length)) := by
  have hrs : 8 ≤ s.recordsize := hwf.rs8
  set N := s.records.length with hN
  have hN1 : 1 ≤ N := hwf.pos
  have hnum : s.current_size / s.recordsize = N := by
    rw [hwf.size_eq, Nat.mul_div_cancel _ (by omega)]
  have hnew : 2 * s.current_size / s.recordsize = 2 * N := by
    rw [hwf.size_eq, ← Nat.mul_assoc, Nat.mul_div_cancel _ (by omega)]
  set z : Slot := { next := 0, data := List.replicate (s.recordsize - INTSIZE) 0 }
    with hz
  set recs0 : List Slot := s.records ++ List.replicate (2 * N - N) z with hrecs0
  have hlen0 : recs0.length = 2 * N := by
    rw [hrecs0]
    simp
    omega
  set recs1 : List Slot := init_free_list recs0 N with hrecs1
  have hlen1 : recs1.length = 2 * N := by
    rw [hrecs1, length_init_free_list, hlen0]
  have hget1 := fun i =>
    getSlot_init_free_list recs0 N (by omega) i
  have hg_old : ∀ i, i < N → getSlot recs1 i = getSlot s.records i := by
    intro i hi
    rw [hget1 i, hlen0, if_neg (by omega), if_neg (by omega), hrecs0,
      getSlot_append_left _ hi]
  have hg_new : ∀ i, N ≤ i → i < 2 * N →
      getSlot recs1 i =
        if i = 2 * N - 1 then { z with next := NO_MORE_RECORDS }
        else { z with next := i + 1 } := by
    intro i hi1 hi2
    have hz0 : getSlot recs0 i = z := by
      rw [hrecs0]
      exact getSlot_append_replicate z hi1 (by rw [← hN]; omega)
    rw [hget1 i, hlen0]
    by_cases hc : i = 2 * N - 1
    · rw [if_pos hc, if_pos hc, hz0]
    · rw [if_neg hc, if_pos (by omega), if_neg hc, hz0]
  have hchain_new : Chain recs1 N (List.range' N N) := by
    have := chain_range' recs1 (2 * N) N
      (by omega) (by omega)
      (fun i hi1 hi2 => by rw [hg_new i hi1 (by omega), if_neg (by omega)])
      (by rw [hg_new (2 * N - 1) (by omega) (by omega), if_pos rfl])
      N N le_rfl (by omega) hN1
    exact this
  have hflN : ∀ x ∈ fl, x < N := by
    intro x hx
    have : x ∈ List.range N := hperm.subset (List.mem_append_left _ hx)
    exact List.mem_range.mp this
  have hcsN : ∀ x ∈ cs.flatten, x < N := by
    intro x hx
    have : x ∈ List.range N := hperm.subset (List.mem_append_right _ hx)
    exact List.mem_range.mp this
  have hfllen : fl.length ≤ N := by
    have h' := hperm.length_eq
    rw [List.length_append, List.length_range] at h'
    omega
  have hnd : (fl ++ cs.flatten).Nodup :=
    hperm.nodup_iff.mpr (List.nodup_range _)
  have hfl1 : Chain recs1 s.first_free fl := by
    refine hfl.frame (by omega) fun x hx => ?_
    rw [hg_old x (hflN x hx)]
  have hcs1 : List.Forall₂ (fun (e : Entry) c => Chain recs1 e.2.1 c ∧ c ≠ [])
      s.index cs := by
    refine hcs.frameChains (by omega) fun x hx => ?_
    rw [hg_old x (hcsN x hx)]
  have hrange2 : List.range N ++ List.range' N N = List.range (2 * N) := by
    rw [List.range_eq_range', List.range_eq_range']
    have := List.range'_append 0 N N 1
    simp at this
    rw [this]
    congr 1
    omega
  by_cases hff : s.first_free = NO_MORE_RECORDS
  · have hflnil : fl = [] :=
      (Chain.unique (Chain.nil : Chain s.records NO_MORE_RECORDS []) (hff ▸ hfl)).symm
    have hres : resize s = writeHeader (writeIndexD
        { s with
          index_offset := 2 * s.current_size + RECORDS_OFFSET
          current_size := 2 * s.current_size
          records := recs1
          first_free := N }) := by
      rw [resize]
      simp only [hnum, hnew, hff]
      rw [hrecs1, hrecs0, hz, ← hN]
      simp only [if_neg (by simp : ¬ (NO_MORE_RECORDS ≠ NO_MORE_RECORDS))]
    subst hflnil
    rw [hres]
    refine ⟨?_, ?_, ?_, ?_, ?_, ?_, ?_, ?_, ?_, ?_, ?_, ?_, ?_⟩
    · simp [writeHeader, writeIndexD]
    · simp [writeHeader, writeIndexD]
    · simpa [writeHeader, writeIndexD] using hlen1
    · simp [writeHeader, writeIndexD]
      rw [hwf.size_eq]
      ring
    · simp [writeHeader, writeIndexD]
    · simp [writeHeader, writeIndexD]
    · simp [writeHeader, writeIndexD]
    · intro i hi
      simp only [writeHeader, writeIndexD]
      rw [hg_old i hi]
    · intro i hi1 hi2
      simp only [writeHeader, writeIndexD]
      rw [hg_new i hi1 hi2]
      by_cases hc : i = 2 * N - 1 <;> simp [hc, hz]
    · intro i hi _
      simp only [writeHeader, writeIndexD]
      rw [hg_old i hi]
    · simp only [writeHeader, writeIndexD]
      simpa using hchain_new
    · simp only [writeHeader, writeIndexD]
      exact hcs1
    · simp only [List.nil_append]
      have hflat : cs.flatten.Perm (List.range N) := by simpa using hperm
      have hcomm : (List.range' N N ++ cs.flatten).Perm
          (cs.flatten ++ List.range' N N) := List.perm_append_comm
      exact (hcomm.trans (hflat.append_right _)).trans (hrange2 ▸ List.Perm.refl _)
  · have hflne : fl ≠ [] := by
      intro h
      subst h
      exact hff hfl.eq_sentinel
    set L := fl.getLast hflne with hL
    have hfllen : fl.length ≤ N := by omega
    have hlastc : last_in_chain recs1 recs1.length s.first_free = some L :=
      last_in_chain_eq hfl1 hflne recs1.length (by omega)
    have hres : resize s = writeHeader (writeIndexD
        { s with
          index_offset := 2 * s.current_size + RECORDS_OFFSET
          current_size := 2 * s.current_size
          records := setNext recs1 L N
          first_free := s.first_free }) := by
      rw [resize]
      simp only [hnum, hnew]
      rw [hrecs1, hrecs0, hz, ← hN]
      rw [if_pos (by simpa using hff)]
      rw [hrecs1, hrecs0, hz] at hlastc
      rw [hlastc]
    have hLfl : L ∈ fl := List.getLast_mem hflne
    have hLN : L < N := hflN L hLfl
    have hLcs : L ∉ cs.flatten := by
      intro hx
      have := (List.disjoint_of_nodup_append hnd) hLfl
      exact this hx
    rw [hres]
    refine ⟨?_, ?_, ?_, ?_, ?_, ?_, ?_, ?_, ?_, ?_, ?_, ?_, ?_⟩
    · simp [writeHeader, writeIndexD]
    · simp [writeHeader, writeIndexD]
    · simp only [writeHeader, writeIndexD]
      rw [length_setNext, hlen1]
    · simp [writeHeader, writeIndexD]
      rw [hwf.size_eq]
      ring
    · simp [writeHeader, writeIndexD]
    · simp [writeHeader, writeIndexD]
    · simp [writeHeader, writeIndexD]
    · intro i hi
      simp only [writeHeader, writeIndexD]
      rw [data_setNext, hg_old i hi]
    · intro i hi1 hi2
      simp only [writeHeader, writeIndexD]
      rw [data_setNext, hg_new i hi1 hi2]
      by_cases hc : i = 2 * N - 1 <;> simp [hc, hz]
    · intro i hi hiL
      simp only [writeHeader, writeIndexD]
      rw [getSlot_setNext_ne _ (fun e => (hiL hflne) e.symm), hg_old i hi]
    · simp only [writeHeader, writeIndexD]
      exact Chain.glue hfl1 hflne hchain_new
        (fun x hx hmem => by
          have := List.mem_range'_1.mp hmem
          exact absurd (hflN x hx) (by omega))
        hfl.nodup
    · simp only [writeHeader, writeIndexD]
      refine hcs.frameChains (by rw [length_setNext]; omega) fun x hx => ?_
      have hxL : L ≠ x := fun e => hLcs (e ▸ hx)
      rw [getSlot_setNext_ne _ hxL, hg_old x (hcsN x hx)]
    · have h1 : ((fl ++ List.range' N N) ++ cs.flatten).Perm
          ((fl ++ cs.flatten) ++ List.range' N N) := by
        rw [List.append_assoc, List.append_assoc]
        exact List.Perm.append_left fl List.perm_append_comm
      exact h1.trans ((hperm.append_right _).trans (hrange2 ▸ List.Perm.refl _))

/-! The allocator: specification of `_allocate_records` and of the
grow-and-retry loop `allocate`. -/

theorem Chain.headD {recs : List Slot} {h : Nat} {l : List Nat}
    (hc : Chain recs h l) (hne : l ≠ []) : l.headD 0 = h := by
  cases l with
  | nil => exact absurd rfl hne
  | cons x xs => rw [List.headD_cons, hc.head_cases.1]

/-- Following a chain past a nonempty prefix `t` lands at the slot stored
in the last slot of `t`. -/
theorem Chain.split_next {recs : List Slot} {h : Nat} {t d : List Nat}
    (hc : Chain recs h (t ++ d)) (ht : t ≠ []) :
    Chain recs ((getSlot recs (t.getLast ht)).next) d := by
  induction t generalizing h with
  | nil => exact absurd rfl ht
  | cons a t' ih =>
      cases hc with
      | cons hlt hne hrest =>
        by_cases h' : t' = []
        · subst h'
          simpa using hrest
        · rw [List.getLast_cons h']
          exact ih hrest h'

/-- What `allocate` guarantees about its output on a well-formed state:
the returned slots form a detached chain of the requested length in the
result state, which is well-formed except that those slots are accounted
to the extra chain rather than to the free list or an entry. -/
structure AllocOut (s : IndexedFile) (n : Nat) (l : List Nat) (t : IndexedFile) :
    Prop where
  rs_eq : t.recordsize = s.recordsize
  idx_eq : t.index = s.index
  disk_eq : t.diskIndex = s.diskIndex
  len_n : l.length = n
  lne : l ≠ []
  chain : Chain t.records (l.headD 0) l
  size_eq : t.current_size = t.records.length * t.recordsize
  io_eq : t.index_offset = t.current_size + RECORDS_OFFSET
  pos : 1 ≤ t.records.length
  bound : t.records.length < NO_MORE_RECORDS
  data_len : ∀ i < t.records.length,
    (getSlot t.records i).data.length = t.recordsize - INTSIZE
  hdr : t.diskHeader = (MAGIC_NUMBER, t.recordsize, t.index_offset, t.first_free)
  part : PartWith t l
  mono : s.records.length ≤ t.records.length

theorem allocate_records_none {s : IndexedFile} {fl : List Nat}
    (hfl : Chain s.records s.first_free fl) {n : Nat} (h : fl.length < n) :
    allocate_records s n = none := by
  rw [allocate_records]
  simp only [allocWalk_eq_take hfl]
  rw [List.take_of_length_le (by omega), if_pos h]

theorem allocate_records_some {s : IndexedFile} (hwf : WF s)
    {fl : List Nat} {cs : List (List Nat)}
    (hfl : Chain s.records s.first_free fl) (hcs : EntryChains s cs)
    (hperm : (fl ++ cs.flatten).Perm (List.range s.records.length))
    {n : Nat} (hn : 1 ≤ n) (hle : n ≤ fl.length) :
    ∃ t, allocate_records s n = some (fl.take n, t) ∧ AllocOut s n (fl.take n) t ∧
      t.records.length = s.records.length := by
  have hTlen : (fl.take n).length = n := List.length_take_of_le hle
  have hTne : fl.take n ≠ [] := by
    intro e
    rw [e] at hTlen
    simp at hTlen
    omega
  set T := fl.take n with hT
  set D := fl.drop n with hD
  have htd : T ++ D = fl := List.take_append_drop n fl
  set L := T.getLast hTne with hL
  have hLT : L ∈ T := List.getLast_mem hTne
  have hLfl : L ∈ fl := List.mem_of_mem_take hLT
  have hfl' : Chain s.records s.first_free (T ++ D) := by rw [htd]; exact hfl
  have hnd' : (T ++ D).Nodup := by rw [htd]; exact hfl.nodup
  have hflne : fl ≠ [] := by
    intro e
    rw [e] at hle
    simp at hle
    omega
  have hndapp : (fl ++ cs.flatten).Nodup := hperm.nodup_iff.mpr (List.nodup_range _)
  have hLcs : L ∉ cs.flatten := fun hx =>
    (List.disjoint_of_nodup_append hndapp) hLfl hx
  have hLD : L ∉ D := by
    intro hx
    have := List.disjoint_of_nodup_append hnd'
    exact this hLT hx
  have hLlt : L < s.records.length := hfl.mem_lt L hLfl
  set nf := (getSlot s.records L).next with hnf
  set recs' := setNext s.records L NO_MORE_RECORDS with hrecs'
  set t : IndexedFile := writeHeader { s with records := recs', first_free := nf }
    with ht
  have hchainT : Chain recs' s.first_free T := Chain.close hfl' hTne hnd'
  have hchainD : Chain recs' nf D :=
    (hfl'.split_next hTne).setNext_not_mem hLD
  have hcs' : List.Forall₂ (fun (e : Entry) c => Chain recs' e.2.1 c ∧ c ≠ [])
      s.index cs := by
    refine hcs.frameChains (by rw [hrecs', length_setNext]) fun x hx => ?_
    have hxL : L ≠ x := fun e => hLcs (e ▸ hx)
    rw [hrecs', getSlot_setNext_ne _ hxL]
  have hcomp : allocate_records s n = some (T, t) := by
    rw [allocate_records]
    simp only [allocWalk_eq_take hfl]
    rw [← hT, if_neg (by omega), List.getLast?_eq_getLast T hTne, ← hL]
  have hlen' : recs'.length = s.records.length := by
    rw [hrecs', length_setNext]
  refine ⟨t, hcomp, ?_, by rw [ht]; simpa [writeHeader] using hlen'⟩
  refine ⟨rfl, rfl, rfl, hTlen, hTne, ?_, ?_, ?_, ?_, ?_, ?_, ?_, ?_, ?_⟩
  · rw [hchainT.headD hTne]
    simpa [ht, writeHeader] using hchainT
  · simpa [ht, writeHeader, hlen'] using hwf.size_eq
  · exact hwf.io_eq
  · simp [ht, writeHeader, hlen']
    exact hwf.pos
  · simp [ht, writeHeader, hlen']
    exact hwf.bound
  · intro i hi
    simp only [ht, writeHeader] at hi ⊢
    rw [hrecs', data_setNext]
    exact hwf.data_len i (by rw [hlen'] at hi; exact hi)
  · simp [ht, writeHeader]
  · refine ⟨D, cs, ?_, ?_, ?_⟩
    · simpa [ht, writeHeader] using hchainD
    · rw [EntryChains]
      simpa [ht, writeHeader] using hcs'
    · simp only [ht, writeHeader, hlen']
      have h1 : (D ++ (T ++ cs.flatten)).Perm ((T ++ D) ++ cs.flatten) := by
        rw [List.append_assoc]
        exact (List.perm_append_comm_assoc T D cs.flatten).symm
      rw [htd] at h1
      exact h1.trans hperm
  · simp [ht, writeHeader, hlen']

theorem allocate_go {n : Nat} (hn : 1 ≤ n) :
    ∀ (fuel : Nat) (s : IndexedFile) (fl : List Nat) (cs : List (List Nat)),
    1 ≤ fuel → WF s → Chain s.records s.first_free fl → EntryChains s cs →
    (fl ++ cs.flatten).Perm (List.range s.records.length) →
    n ≤ fl.length + (fuel - 1) →
    2 ^ (fuel - 1) * s.records.length < NO_MORE_RECORDS →
    ∃ l t, allocate s n fuel = some (l, t) ∧ AllocOut s n l t ∧
      t.records.length ≤ 2 ^ (fuel - 1) * s.records.length := by
  intro fuel
  induction fuel with
  | zero =>
      intro s fl cs hfuel hwf hfl hcs hperm hlen hbig
      omega
  | succ f ih =>
      intro s fl cs hfuel hwf hfl hcs hperm hlen hbig
      by_cases hcase : n ≤ fl.length
      · obtain ⟨t, hcomp, hout, hsame⟩ :=
          allocate_records_some hwf hfl hcs hperm hn hcase
        refine ⟨fl.take n, t, ?_, hout, ?_⟩
        · rw [allocate, hcomp]
        · rw [hsame]
          have h1 : 1 ≤ 2 ^ (f + 1 - 1) := Nat.one_le_two_pow
          calc s.records.length = 1 * s.records.length := by ring
            _ ≤ 2 ^ (f + 1 - 1) * s.records.length :=
                Nat.mul_le_mul_right _ h1
      · have hf1 : 1 ≤ f := by omega
        have hnone : allocate_records s n = none :=
          allocate_records_none hfl (by omega)
        have h2 : 2 * s.records.length < NO_MORE_RECORDS := by
          have h2f : 2 ≤ 2 ^ (f + 1 - 1) := by
            calc (2 : Nat) = 2 ^ 1 := by ring
              _ ≤ 2 ^ (f + 1 - 1) := Nat.pow_le_pow_right (by omega) (by omega)
          have := Nat.mul_le_mul_right s.records.length h2f
          omega
        obtain ⟨hrs, hidx, hlen2, hcsz, hio, hhdr, hdisk, hdold, hdnew, hnext,
          hchain, hforall, hperm2⟩ := resize_core hwf h2 hfl hcs hperm
        set s1 := resize s
        have hwf1 : WF s1 := by
          refine ⟨?_, ?_, ?_, ?_, ?_, ?_, ?_, ?_, ?_, ?_⟩
          · rw [hrs]; exact hwf.rs8
          · rw [hcsz, hlen2, hrs]
          · rw [hio]
          · rw [hlen2]; have := hwf.pos; omega
          · rw [hlen2]; omega
          · intro i hi
            rw [hlen2] at hi
            rcases Nat.lt_or_ge i s.records.length with hlt | hge
            · rw [hdold i hlt, hrs]
              exact hwf.data_len i hlt
            · rw [hdnew i hge hi, hrs, List.length_replicate]
          · rw [hhdr]
          · rw [hdisk, hidx]
          · rw [hidx]; exact hwf.keys_nodup
          · refine ⟨fl ++ List.range' s.records.length s.records.length, cs,
              hchain, ?_, ?_⟩
            · rw [EntryChains, hidx]; exact hforall
            · simp only [List.nil_append]
              rw [hlen2]
              exact hperm2
        have ih' := ih s1 (fl ++ List.range' s.records.length s.records.length) cs
          hf1 hwf1 hchain (by rw [EntryChains, hidx]; exact hforall)
          (by rw [hlen2]; exact hperm2)
          (by
            rw [List.length_append, List.length_range']
            have := hwf.pos
            omega)
          (by
            rw [hlen2, ← Nat.mul_assoc, ← pow_succ]
            have hfe : f - 1 + 1 = f + 1 - 1 := by omega
            rw [hfe]
            exact hbig)
        obtain ⟨l, t, hcomp, hout, hgrow⟩ := ih'
        refine ⟨l, t, ?_, ?_, ?_⟩
        · rw [allocate, hnone, hcomp]
        · exact ⟨hout.rs_eq.trans hrs, hout.idx_eq.trans hidx,
            hout.disk_eq.trans (hdisk.trans hwf.idx_sync.symm), hout.len_n,
            hout.lne, hout.chain, hout.size_eq, hout.io_eq, hout.pos, hout.bound,
            hout.data_len, hout.hdr, hout.part,
            le_trans (by rw [hlen2]; omega) hout.mono⟩
        · calc t.records.length ≤ 2 ^ (f - 1) * s1.records.length := hgrow
            _ = 2 ^ (f + 1 - 1) * s.records.length := by
                rw [hlen2, ← Nat.mul_assoc, ← pow_succ]
                have hfe : f - 1 + 1 = f + 1 - 1 := by omega
                rw [hfe]

/-- Top-level allocator specification: with fuel `n + 1`, `allocate`
always returns exactly `n` slots on a well-formed state (the grow-retry
loop terminates), provided slot numbers stay below the sentinel. -/
theorem allocate_spec {s : IndexedFile} (hwf : WF s) {n : Nat} (hn : 1 ≤ n)
    (hbig : 2 ^ n * s.records.length < NO_MORE_RECORDS) :
    ∃ l t, allocate s n (n + 1) = some (l, t) ∧ AllocOut s n l t ∧
      t.records.length ≤ 2 ^ n * s.records.length := by
  obtain ⟨fl, cs, hfl, hcs, hperm⟩ := hwf.part
  have hperm' : (fl ++ cs.flatten).Perm (List.range s.records.length) := by
    simpa using hperm
  have := allocate_go hn (n + 1) s fl cs (by omega) hwf hfl hcs hperm'
    (by omega) (by simpa using hbig)
  simpa using this

/-! Lemmas about the in-memory index (association-list operations). -/

theorem eraseKey_keys_sublist (index : List Entry) (k : String) :
    ((eraseKey index k).map Prod.fst).Sublist (index.map Prod.fst) :=
  (List.filter_sublist index).map Prod.fst

theorem lookupIdx_eraseKey_self (index : List Entry) (k : String) :
    lookupIdx (eraseKey index k) k = none := by
  rw [lookupIdx, List.find?_eq_none.mpr]
  · rfl
  · intro e he
    have := List.of_mem_filter he
    simpa using this

theorem containsKey_eraseKey_self (index : List Entry) (k : String) :
    containsKey (eraseKey index k) k = false := by
  rw [containsKey]
  rw [List.any_eq_false]
  intro e he
  have := List.of_mem_filter he
  simpa using this

theorem eraseKey_of_not_mem {index : List Entry} {k : String}
    (h : ∀ e ∈ index, e.1 ≠ k) : eraseKey index k = index := by
  rw [eraseKey, List.filter_eq_self]
  intro e he
  simpa using h e he

theorem containsKey_lookup {k : String} :
    ∀ {index : List Entry}, containsKey index k = true →
    ∃ p, lookupIdx index k = some p := by
  intro index
  induction index with
  | nil => intro h; simp [containsKey] at h
  | cons e rest ih =>
      intro h
      by_cases he : e.1 = k
      · refine ⟨e.2, ?_⟩
        rw [lookupIdx, List.find?_cons]
        simp [he]
      · have h' : containsKey rest k = true := by
          rw [containsKey, List.any_cons] at h
          rw [containsKey]
          simpa [he] using h
        obtain ⟨p, hp⟩ := ih h'
        refine ⟨p, ?_⟩
        rw [lookupIdx, List.find?_cons]
        simp only [he, decide_False]
        exact hp

theorem setKey_of_not_mem {k : String} (v : Nat × Nat) :
    ∀ {index : List Entry}, (∀ e ∈ index, e.1 ≠ k) →
    setKey index k v = index ++ [(k, v)] := by
  intro index
  induction index with
  | nil => intro _; rfl
  | cons e rest ih =>
      intro h
      rw [setKey, if_neg (h e (List.mem_cons_self _ _)), List.cons_append,
        ih fun e' he' => h e' (List.mem_cons_of_mem _ he')]

theorem lookupIdx_setKey_self (k : String) (v : Nat × Nat) :
    ∀ (index : List Entry), lookupIdx (setKey index k v) k = some v := by
  intro index
  induction index with
  | nil => simp [setKey, lookupIdx]
  | cons e rest ih =>
      rw [setKey]
      by_cases he : e.1 = k
      · rw [if_pos he, lookupIdx, List.find?_cons]
        simp [he]
      · rw [if_neg he, lookupIdx, List.find?_cons]
        simp only [he, decide_False]
        exact ih

/-- Removing a found key from the index splits off its chain: the
remaining entries keep their chains, and the removed chain plus the
remaining chains are a permutation of the old ones. -/
theorem erase_chain_aux {recs : List Slot} {k : String} {p : Nat × Nat} :
    ∀ {index : List Entry} {cs : List (List Nat)},
    List.Forall₂ (fun (e : Entry) c => Chain recs e.2.1 c ∧ c ≠ []) index cs →
    lookupIdx index k = some p →
    (index.map Prod.fst).Nodup →
    ∃ c cs', Chain recs p.1 c ∧ c ≠ [] ∧
      List.Forall₂ (fun (e : Entry) c => Chain recs e.2.1 c ∧ c ≠ [])
        (eraseKey index k) cs' ∧
      cs.flatten.Perm (c ++ cs'.flatten) := by
  intro index cs h
  induction h with
  | nil => intro hl _; simp [lookupIdx] at hl
  | cons he ht ih =>
      rename_i e c index' cs'
      intro hl hnd
      rw [lookupIdx, List.find?_cons] at hl
      rw [List.map_cons, List.nodup_cons] at hnd
      by_cases hk : e.1 = k
      · simp [hk] at hl
        have hkeys : ∀ e' ∈ index', e'.1 ≠ k := by
          intro e' he' heq
          apply hnd.1
          rw [hk, ← heq]
          exact List.mem_map_of_mem Prod.fst he'
        have h1 : eraseKey (e :: index') k = index' := by
          rw [eraseKey, List.filter_cons, if_neg (by simp [hk])]
          exact eraseKey_of_not_mem hkeys
        refine ⟨c, cs', ?_, he.2, ?_, ?_⟩
        · rw [← hl]
          exact he.1
        · rw [h1]
          exact ht
        · rw [List.flatten_cons]
      · simp only [hk, decide_False] at hl
        obtain ⟨c0, cs0, hc0, hc0ne, hf0, hp0⟩ := ih hl hnd.2
        have h1 : eraseKey (e :: index') k = e :: eraseKey index' k := by
          rw [eraseKey, List.filter_cons, if_pos (by simp [hk])]
          rfl
        refine ⟨c0, c :: cs0, hc0, hc0ne, ?_, ?_⟩
        · rw [h1]
          exact .cons he hf0
        · rw [List.flatten_cons, List.flatten_cons]
          refine (hp0.append_left c).trans ?_
          exact List.perm_append_comm_assoc c c0 _

/-- Specification of `__delitem__` on a present key: it succeeds, removes
the entry, flushes the index, splices the chain onto the free list and
preserves well-formedness. -/
theorem delitem_spec {s : IndexedFile} (hwf : WF s) {k : String} {p : Nat × Nat}
    (hl : lookupIdx s.index k = some p) :
    ∃ s', delitem s k = some s' ∧ WF s' ∧
      s'.index = eraseKey s.index k ∧
      s'.recordsize = s.recordsize ∧
      s'.records.length = s.records.length ∧
      s'.first_free = p.1 ∧
      s'.diskIndex = encodeIndex (eraseKey s.index k) ∧
      containsKey s'.index k = false ∧
      getitem s' k = none := by
  obtain ⟨p1, p2⟩ := p
  obtain ⟨fl, cs, hfl, hcs, hperm0⟩ := hwf.part
  have hperm : (fl ++ cs.flatten).Perm (List.range s.records.length) := by
    simpa using hperm0
  obtain ⟨c, cs', hc, hcne, hf', hpflat⟩ := erase_chain_aux hcs hl hwf.keys_nodup
  have hnd := hperm.nodup_iff.mpr (List.nodup_range _)
  have hcsub : ∀ x ∈ c, x ∈ cs.flatten := fun x hx =>
    hpflat.symm.subset (List.mem_append_left _ hx)
  have hcfl : ∀ x ∈ c, x ∉ fl := fun x hx hxfl =>
    (List.disjoint_of_nodup_append hnd) hxfl (hcsub x hx)
  have hclen : c.length ≤ s.records.length := by
    have hsub : c ⊆ List.range s.records.length := fun x hx =>
      hperm.subset (List.mem_append_right _ (hcsub _ hx))
    have := (hc.nodup.subperm hsub).length_le
    simpa using this
  set L := c.getLast hcne with hLdef
  have hLc : L ∈ c := List.getLast_mem hcne
  have hlast : last_in_chain s.records s.records.length p1 = some L :=
    last_in_chain_eq hc hcne _ hclen
  set sfin : IndexedFile :=
    writeHeader
      { s with
        index := eraseKey s.index k
        diskIndex := encodeIndex (eraseKey s.index k)
        records := setNext s.records L s.first_free
        first_free := p1 } with hsfin
  have hcomp : delitem s k = some sfin := by
    rw [delitem, hl]
    simp only [writeIndexD]
    rw [hlast]
  have hflatnd : cs.flatten.Nodup := by
    rw [List.nodup_append] at hnd
    exact hnd.2.1
  have hLcs' : L ∉ cs'.flatten := by
    have hnd2 : (c ++ cs'.flatten).Nodup := hpflat.nodup_iff.mp hflatnd
    exact (List.disjoint_of_nodup_append hnd2) hLc
  have hlen' : sfin.records.length = s.records.length := by
    rw [hsfin]
    simp [writeHeader, length_setNext]
  refine ⟨sfin, hcomp, ?_, rfl, rfl, hlen', rfl, rfl, ?_, ?_⟩
  · refine ⟨hwf.rs8, ?_, hwf.io_eq, ?_, ?_, ?_, ?_, rfl, ?_, ?_⟩
    · rw [hlen']
      exact hwf.size_eq
    · rw [hlen']
      exact hwf.pos
    · rw [hlen']
      exact hwf.bound
    · intro i hi
      rw [hlen'] at hi
      simp only [hsfin, writeHeader]
      rw [data_setNext]
      exact hwf.data_len i hi
    · rw [hsfin]
      simp [writeHeader]
    · exact hwf.keys_nodup.sublist (eraseKey_keys_sublist s.index k)
    · refine ⟨c ++ fl, cs', ?_, ?_, ?_⟩
      · simp only [hsfin, writeHeader]
        exact Chain.glue hc hcne hfl hcfl hc.nodup
      · rw [EntryChains]
        simp only [hsfin, writeHeader]
        refine forall₂_chain_frame hf' (by rw [length_setNext]) fun x hx => ?_
        have hxL : L ≠ x := fun e => hLcs' (e ▸ hx)
        rw [getSlot_setNext_ne _ hxL]
      · simp only [hsfin, writeHeader, length_setNext, List.nil_append]
        rw [List.append_assoc]
        refine (List.perm_append_comm_assoc c fl cs'.flatten).trans ?_
        refine (List.Perm.append_left fl ?_).trans hperm
        exact hpflat.symm
  · exact containsKey_eraseKey_self s.index k
  · rw [getitem]
    have : lookupIdx sfin.index k = none := lookupIdx_eraseKey_self s.index k
    rw [this]

/-! Specification of `__setitem__`. -/

theorem not_contains_forall {index : List Entry} {k : String}
    (h : containsKey index k = false) : ∀ e ∈ index, e.1 ≠ k := by
  rw [containsKey, List.any_eq_false] at h
  intro e he
  simpa using h e he

theorem le_recordsNeeded_mul {d u : Nat} (hu : 1 ≤ u) :
    d ≤ recordsNeeded d u * u := by
  rw [recordsNeeded]
  have hdm := Nat.div_add_mod d u
  have hmlt : d % u < u := Nat.mod_lt _ (by omega)
  have hexp : (d / u + 1) * u = d / u * u + u := by ring
  have hcomm : u * (d / u) = d / u * u := Nat.mul_comm _ _
  omega

theorem data_len_writeChunks {u : Nat} : ∀ (idxs : List Nat) (recs : List Slot)
    (b : List Nat), (∀ i < recs.length, (getSlot recs i).data.length = u) →
    ∀ j < (writeChunks recs idxs b u).length,
      (getSlot (writeChunks recs idxs b u) j).data.length = u := by
  intro idxs
  induction idxs with
  | nil =>
      intro recs b h j hj
      exact h j (by simpa using hj)
  | cons i rest ih =>
      intro recs b h j hj
      rw [writeChunks] at hj ⊢
      refine ih _ _ ?_ j hj
      intro i' hi'
      rw [length_writeData] at hi'
      rcases eq_or_ne i i' with rfl | hne
      · rw [getSlot_writeData_self hi']
        have := h i hi'
        simp
        omega
      · rw [getSlot_writeData_ne recs hne]
        exact h i' hi'

theorem setitemRaw_spec {s : IndexedFile} (hwf : WF s) {k : String} {b : List Nat}
    (habs : containsKey s.index k = false)
    (hbig : 2 ^ recordsNeeded b.length (s.recordsize - INTSIZE) * s.records.length
      < NO_MORE_RECORDS) :
    ∃ s', setitemRaw s k b = some s' ∧ WF s' ∧
      s'.recordsize = s.recordsize ∧
      getitem s' k = some b ∧
      s.records.length ≤ s'.records.length ∧
      s'.records.length ≤ 2 ^ recordsNeeded b.length (s.recordsize - INTSIZE)
        * s.records.length ∧
      ∃ h0 c, lookupIdx s'.index k = some (h0, b.length) ∧
        Chain s'.records h0 c ∧
        c.length = recordsNeeded b.length (s.recordsize - INTSIZE) := by
  have hu4 : 4 ≤ s.recordsize - INTSIZE := by
    have := hwf.rs8
    rw [INTSIZE]
    omega
  have hn1 : 1 ≤ recordsNeeded b.length (s.recordsize - INTSIZE) := by
    rw [recordsNeeded]
    exact Nat.succ_le_succ (Nat.zero_le _)
  obtain ⟨l, t, hcomp, hout, hgrow⟩ := allocate_spec hwf hn1 hbig
  obtain ⟨x, xs, rfl⟩ := List.exists_cons_of_ne_nil hout.lne
  have hchain : Chain t.records x (x :: xs) := by
    have := hout.chain
    rwa [List.headD_cons] at this
  set u := s.recordsize - INTSIZE with hu
  set n := recordsNeeded b.length u with hn
  set recs' := writeChunks t.records (x :: xs) b u with hrecs'
  set s' : IndexedFile := writeIndexD
    { t with
      records := recs'
      index := setKey t.index k (x, b.length) } with hs'
  have hcomp' : setitemRaw s k b = some s' := by
    rw [setitemRaw, hcomp]
    rfl
  have hlen' : s'.records.length = t.records.length := by
    simp only [hs', writeIndexD, hrecs']
    rw [length_writeChunks]
  obtain ⟨fl, cs, hflc, hcsc, hpermc⟩ := hout.part
  have hlperm : (x :: xs).length ≤ t.records.length := by
    have h' := hpermc.length_eq
    simp only [List.length_append, List.length_range] at h'
    omega
  have htu : t.recordsize - INTSIZE = u := by rw [hout.rs_eq]
  have habs' : ∀ e ∈ t.index, e.1 ≠ k := by
    rw [hout.idx_eq]
    exact not_contains_forall habs
  have hsetk : setKey t.index k (x, b.length) = t.index ++ [(k, (x, b.length))] :=
    setKey_of_not_mem _ habs'
  have hchain' : Chain s'.records x (x :: xs) := by
    simp only [hs', writeIndexD, hrecs']
    exact hchain.writeChunks_frame
  have hdl : ∀ i ∈ x :: xs, (getSlot t.records i).data.length = u := by
    intro i hi
    rw [← htu]
    exact hout.data_len i (hchain.mem_lt i hi)
  have hread := writeChunks_read (x :: xs) t.records b u
    hchain.nodup (fun i hi => hchain.mem_lt i hi) hdl
    (by rw [hout.len_n, hn]; exact le_recordsNeeded_mul (by omega))
    (by omega)
  have hget : getitem s' k = some b := by
    have hl1 : lookupIdx s'.index k = some (x, b.length) := by
      simp only [hs', writeIndexD]
      exact lookupIdx_setKey_self k _ t.index
    have hrs' : s'.recordsize - INTSIZE = u := by
      simp only [hs', writeIndexD]
      rw [htu]
    have hretr := retrieve_eq u hchain' s'.records.length
      (by rw [hlen']; exact hlperm)
    have hflat : (List.map (fun i => ((getSlot s'.records i).data.take u)) (x :: xs)).flatten.take
        b.length = b := by
      simp only [hs', writeIndexD, hrecs']
      exact hread
    simp only [getitem, hl1, hrs', hretr, hflat]
  refine ⟨s', hcomp', ?_, by simp [hs', writeIndexD, hout.rs_eq], hget,
    le_trans hout.mono (by omega), by rw [hlen']; exact hgrow,
    x, x :: xs, ?_, hchain', by rw [hout.len_n]⟩
  · refine ⟨?_, ?_, ?_, ?_, ?_, ?_, ?_, ?_, ?_, ?_⟩
    · simp only [hs', writeIndexD]
      rw [hout.rs_eq]
      exact hwf.rs8
    · simp only [hs', writeIndexD, hrecs']
      rw [length_writeChunks]
      exact hout.size_eq
    · simp only [hs', writeIndexD]
      exact hout.io_eq
    · rw [hlen']
      exact hout.pos
    · rw [hlen']
      exact hout.bound
    · intro i hi
      rw [hlen'] at hi
      simp only [hs', writeIndexD, hrecs']
      have hbase : ∀ i' < t.records.length,
          (getSlot t.records i').data.length = u := by
        intro i' hi'
        rw [← htu]
        exact hout.data_len i' hi'
      have := data_len_writeChunks (x :: xs) t.records b hbase i
        (by rw [length_writeChunks]; exact hi)
      rw [this, htu]
    · simp only [hs', writeIndexD]
      exact hout.hdr
    · simp [hs', writeIndexD]
    · simp only [hs', writeIndexD]
      rw [hsetk, List.map_append, List.nodup_append]
      refine ⟨hout.idx_eq ▸ hwf.keys_nodup, by simp, ?_⟩
      intro a ha
      simp only [List.map_cons, List.map_nil, List.mem_singleton]
      obtain ⟨e, he, rfl⟩ := List.mem_map.mp ha
      simpa using habs' e he
    · refine ⟨fl, cs ++ [x :: xs], ?_, ?_, ?_⟩
      · simp only [hs', writeIndexD, hrecs']
        exact hflc.writeChunks_frame
      · rw [EntryChains]
        simp only [hs', writeIndexD, hrecs']
        rw [hsetk]
        refine List.rel_append ?_ ?_
        · refine forall₂_chain_frame hcsc (by rw [length_writeChunks])
            fun x' _ => ?_
          rw [next_writeChunks]
        · exact .cons ⟨hchain.writeChunks_frame, by simp⟩ .nil
      · simp only [List.nil_append, hlen']
        rw [List.flatten_append]
        simp only [List.flatten_cons, List.flatten_nil, List.append_nil]
        refine (List.Perm.append_left fl ?_).trans hpermc
        exact List.perm_append_comm
  · simp only [hs', writeIndexD]
    exact lookupIdx_setKey_self k _ t.index

/-- Specification of `__setitem__` on a well-formed state: it succeeds
(releasing the previous chain first when the key is present), the state
stays well-formed, and the key maps to a fresh chain of exactly
`records_needed` slots holding the payload. -/
theorem setitem_spec {s : IndexedFile} (hwf : WF s) {k : String} {b : List Nat}
    (hbig : 2 ^ recordsNeeded b.length (s.recordsize - INTSIZE) * s.records.length
      < NO_MORE_RECORDS) :
    ∃ s', setitem s k b = some s' ∧ WF s' ∧
      s'.recordsize = s.recordsize ∧
      getitem s' k = some b ∧
      s.records.length ≤ s'.records.length ∧
      s'.records.length ≤ 2 ^ recordsNeeded b.length (s.recordsize - INTSIZE)
        * s.records.length ∧
      ∃ h0 c, lookupIdx s'.index k = some (h0, b.length) ∧
        Chain s'.records h0 c ∧
        c.length = recordsNeeded b.length (s.recordsize - INTSIZE) := by
  by_cases hc : containsKey s.index k = true
  · obtain ⟨p, hp⟩ := containsKey_lookup hc
    obtain ⟨s0, hdel, hwf0, hidx0, hrs0, hlen0, hff0, hdisk0, hcont0, hget0⟩ :=
      delitem_spec hwf hp
    obtain ⟨s', hraw, hwf', hrs', hget', hmono', hgrow', hrest'⟩ :=
      setitemRaw_spec hwf0 hcont0 (by rw [hrs0, hlen0]; exact hbig)
    refine ⟨s', ?_, hwf', by rw [hrs', hrs0], hget', ?_, ?_, ?_⟩
    · rw [setitem, if_pos hc, hdel]
      simpa using hraw
    · rw [← hlen0]
      exact hmono'
    · rw [← hrs0, ← hlen0]
      exact hgrow'
    · rw [← hrs0]
      exact hrest'
  · have hcf : containsKey s.index k = false := by
      cases h : containsKey s.index k
      · rfl
      · exact absurd h hc
    obtain ⟨s', hraw, hwf', hrs', hget', hmono', hgrow', hrest'⟩ :=
      setitemRaw_spec hwf hcf hbig
    refine ⟨s', ?_, hwf', hrs', hget', hmono', hgrow', hrest'⟩
    rw [setitem, if_neg hc]
    exact hraw

/-! Reachable handle states: produced by `create` and closed under the
mutating public operations.  The side conditions keep slot numbers below
the 32-bit sentinel, without which the on-disk format itself breaks. -/

inductive Reachable : IndexedFile → Prop where
  | create (rs hint : Nat) : 8 ≤ rs → 1 ≤ hint → hint < NO_MORE_RECORDS →
      Reachable (createFile rs hint)
  | set {s s' : IndexedFile} (k : String) (b : List Nat) : Reachable s →
      setitem s k b = some s' →
      2 ^ recordsNeeded b.length (s.recordsize - INTSIZE) * s.records.length
        < NO_MORE_RECORDS →
      Reachable s'
  | del {s s' : IndexedFile} (k : String) : Reachable s →
      delitem s k = some s' → Reachable s'

theorem reachable_wf {s : IndexedFile} (h : Reachable s) : WF s := by
  induction h with
  | create rs hint h8 h1 hb => exact wf_create h8 h1 hb
  | set k b hr hset hbig ih =>
      obtain ⟨s'', hcomp, hwf'', _⟩ := setitem_spec ih hbig
      rw [hset] at hcomp
      injection hcomp with h
      rw [h]
      exact hwf''
  | del k hr hdel ih =>
      rename_i sa sb
      cases hl : lookupIdx sa.index k with
      | none =>
          simp only [delitem, hl] at hdel
          exact Option.noConfusion hdel
      | some p =>
          obtain ⟨s'', hcomp, hwf'', _⟩ := delitem_spec ih hl
          rw [hcomp] at hdel
          injection hdel with h
          rw [← h]
          exact hwf''

/-! Round trip of the on-disk index serialization. -/

theorem decKey_encKey (k : String) : decKey (encKey k) = k := by
  rw [encKey, decKey]
  simp only [List.drop_succ_cons, List.drop_zero, List.map_map]
  cases k with
  | mk l =>
      congr 1
      have hfun : (Char.ofNat ∘ Char.toNat) = id :=
        funext fun c => Char.ofNat_toNat c
      rw [hfun, List.map_id]

theorem length_lt_encodeIndex (l : List Entry) : l.length < (encodeIndex l).length := by
  induction l with
  | nil => simp [encodeIndex]
  | cons e rest ih =>
      obtain ⟨k, idx, size⟩ := e
      rw [encodeIndex]
      simp only [List.length_cons, List.length_append, List.length_cons]
      omega

theorem decodeIndex_encodeIndex : ∀ (l : List Entry) (fuel : Nat),
    l.length + 1 ≤ fuel → decodeIndex fuel (encodeIndex l) = some l := by
  intro l
  induction l with
  | nil =>
      intro fuel h
      cases fuel with
      | zero => omega
      | succ f => rw [encodeIndex, decodeIndex, if_pos rfl]
  | cons e rest ih =>
      intro fuel h
      obtain ⟨k, idx, size⟩ := e
      cases fuel with
      | zero => omega
      | succ f =>
          rw [encodeIndex]
          have hk0 : (encKey k).length ≠ 0 := by simp [encKey]
          rw [List.cons_append, decodeIndex, if_neg hk0]
          have hdrop : (encKey k ++ idx :: size :: encodeIndex rest).drop
              (encKey k).length = idx :: size :: encodeIndex rest :=
            List.drop_left _ _
          have htake : (encKey k ++ idx :: size :: encodeIndex rest).take
              (encKey k).length = encKey k :=
            List.take_left _ _
          simp only [hdrop, htake, decKey_encKey]
          rw [ih f (by simp at h; omega)]
          rfl

/-- Closing then reopening a well-formed handle restores it exactly:
`_write_index` followed by `_read_header` and `_read_index` reconstructs
the same in-memory state, and the record area is untouched. -/
theorem open_close_id {s : IndexedFile} (hwf : WF s) :
    openFile (closeFile s) = some s := by
  have hhdr := hwf.hdr
  have hio := hwf.io_eq
  have hsync := hwf.idx_sync
  have hdec : decodeIndex ((encodeIndex s.index).length + 1) (encodeIndex s.index)
      = some s.index :=
    decodeIndex_encodeIndex _ _ (by have := length_lt_encodeIndex s.index; omega)
  cases s with
  | mk rs cs io ff idx recs dh di =>
      simp only at hhdr hio hsync
      subst hhdr
      subst hsync
      have hcs : io - RECORDS_OFFSET = cs := by omega
      simp only [closeFile, writeIndexD, openFile, if_true]
      rw [decodeIndex_encodeIndex idx _
        (by have := length_lt_encodeIndex idx; omega)]
      simp only [Option.map_some']
      rw [hcs]

/-- `resize` does not change the result of any lookup: every stored key
still retrieves the same payload. -/
theorem resize_getitem {s : IndexedFile} (hwf : WF s)
    (h2 : 2 * s.records.length < NO_MORE_RECORDS) (k : String) :
    getitem (resize s) k = getitem s k := by
  obtain ⟨fl, cs, hfl, hcs, hperm0⟩ := hwf.part
  have hperm : (fl ++ cs.flatten).Perm (List.range s.records.length) := by
    simpa using hperm0
  obtain ⟨hrs, hidx, hlen2, _, _, _, _, hdold, _, hnext, _, _, _⟩ :=
    resize_core hwf h2 hfl hcs hperm
  rw [getitem, getitem, hidx]
  cases hl : lookupIdx s.index k with
  | none => rfl
  | some p =>
      obtain ⟨p1, p2⟩ := p
      obtain ⟨c, hc, hcne, hmemc⟩ := lookup_chain hcs hl
      have hnd := hperm.nodup_iff.mpr (List.nodup_range _)
      have hc' : Chain (resize s).records p1 c := by
        refine hc.frame (by rw [hlen2]; omega) fun x hx => ?_
        refine hnext x (hc.mem_lt x hx) fun hne he => ?_
        have hLfl : fl.getLast hne ∈ fl := List.getLast_mem hne
        exact (List.disjoint_of_nodup_append hnd) (he ▸ hLfl) (hmemc x hx)
      have hclen : c.length ≤ s.records.length := by
        have hsub : c ⊆ List.range s.records.length := fun x hx =>
          hperm.subset (List.mem_append_right _ (hmemc _ hx))
        have := (hc.nodup.subperm hsub).length_le
        simpa using this
      have hmap : List.map (fun i => ((getSlot (resize s).records i).data.take
          (s.recordsize - INTSIZE))) c =
          List.map (fun i => ((getSlot s.records i).data.take
            (s.recordsize - INTSIZE))) c := by
        refine List.map_congr_left fun x hx => ?_
        rw [hdold x (hc.mem_lt x hx)]
      have hr1 := retrieve_eq (s.recordsize - INTSIZE) hc s.records.length hclen
      have hr2 := retrieve_eq (s.recordsize - INTSIZE) hc'
        (resize s).records.length (by rw [hlen2]; omega)
      simp only [hrs, hr1, hr2, hmap]

/-! Claim theorems. -/

theorem lookup_contains {index : List Entry} {k : String} {p : Nat × Nat}
    (h : lookupIdx index k = some p) : containsKey index k = true := by
  induction index with
  | nil => simp [lookupIdx] at h
  | cons e rest ih =>
      rw [lookupIdx, List.find?_cons] at h
      rw [containsKey, List.any_cons]
      by_cases he : e.1 = k
      · simp [he]
      · simp only [he, decide_False] at h ⊢
        simp only [Bool.false_or]
        exact ih h

/-- C1: round trip — on any well-formed handle, `set(k, b)` succeeds and a
subsequent `get(k)` returns exactly `b` (the concatenated chain contents
truncated to the stored payload length), for every byte payload including
the empty one and payloads spanning multiple slots.  The arithmetic side
condition keeps slot numbers below the 32-bit sentinel. -/
theorem claim_C1_roundtrip {s : IndexedFile} (hwf : WF s) (k : String)
    (b : List Nat)
    (hbig : 2 ^ recordsNeeded b.length (s.recordsize - INTSIZE) * s.records.length
      < NO_MORE_RECORDS) :
    ∃ s', setitem s k b = some s' ∧ getitem s' k = some b := by
  obtain ⟨s', hcomp, _, _, hget, _⟩ := setitem_spec hwf hbig
  exact ⟨s', hcomp, hget⟩

theorem claim_C1_roundtrip_witness :
    (2 ^ recordsNeeded (List.replicate 40 7 : List Nat).length
        ((createFile 16 4).recordsize - INTSIZE) * (createFile 16 4).records.length
      < NO_MORE_RECORDS) ∧
    ∃ s', setitem (createFile 16 4) "a" (List.replicate 40 7) = some s' ∧
      getitem s' "a" = some (List.replicate 40 7) :=
  ⟨by decide, claim_C1_roundtrip (wf_create (by decide) (by decide) (by decide))
    "a" (List.replicate 40 7) (by decide)⟩

/-- C2 (counterexample): the number of slots consumed by `set` is *not*
`ceil(len / usable)` when the payload length is an exact positive multiple
of the usable slot capacity: a 12-byte payload with 12 usable bytes per
slot (`recordsize = 16`) occupies a chain of 2 slots, while
`ceil(12/12) = 1`. -/
theorem claim_C2_counterexample :
    ((setitem (createFile 16 4) "a" (List.replicate 12 37)).bind
      (fun s' => (lookupIdx s'.index "a").bind
        (fun p => record_list s'.records s'.records.length p.1))) = some [0, 1] ∧
    (List.replicate 12 37 : List Nat).length = 12 ∧
    (12 + 12 - 1) / 12 = 1 := by
  refine ⟨by decide, by decide, by decide⟩

/-- C2 (amended): the number of slots allocated by `set` equals
`len(bytes) / usable + 1` (`records_needed = datasize // usable_rec_size + 1`
in the source) — this agrees with `ceil` with a minimum of 1 except when
the length is an exact positive multiple of `usable`, where one extra slot
is consumed. -/
theorem claim_C2_amended {s : IndexedFile} (hwf : WF s) (k : String)
    (b : List Nat)
    (hbig : 2 ^ recordsNeeded b.length (s.recordsize - INTSIZE) * s.records.length
      < NO_MORE_RECORDS) :
    ∃ s', setitem s k b = some s' ∧
      ∃ h0 c, lookupIdx s'.index k = some (h0, b.length) ∧
        Chain s'.records h0 c ∧
        c.length = b.length / (s.recordsize - INTSIZE) + 1 := by
  obtain ⟨s', hcomp, _, _, _, _, _, h0, c, hl, hc, hlen⟩ := setitem_spec hwf hbig
  exact ⟨s', hcomp, h0, c, hl, hc, hlen⟩

theorem claim_C2_amended_witness :
    (2 ^ recordsNeeded (List.replicate 12 37 : List Nat).length
        ((createFile 16 4).recordsize - INTSIZE) * (createFile 16 4).records.length
      < NO_MORE_RECORDS) ∧
    ∃ s', setitem (createFile 16 4) "a" (List.replicate 12 37) = some s' ∧
      ∃ h0 c, lookupIdx s'.index "a" = some (h0, 12) ∧
        Chain s'.records h0 c ∧ c.length = 12 / 12 + 1 :=
  ⟨by decide, by
    have h := claim_C2_amended (s := createFile 16 4)
      (wf_create (by decide) (by decide) (by decide))
      "a" (List.replicate 12 37) (by decide)
    simpa using h⟩

/-- C3: allocator conservation — in every reachable quiescent state, the
free-list length plus the sum of the chain lengths over all index entries
equals `num_slots`, and the free list together with the entry chains is a
permutation of all slot numbers (every slot reachable from exactly one
chain head). -/
theorem claim_C3_conservation {s : IndexedFile} (hs : Reachable s) :
    ∃ fl cs, Chain s.records s.first_free fl ∧
      List.Forall₂ (fun (e : Entry) c => Chain s.records e.2.1 c ∧ c ≠ [])
        s.index cs ∧
      fl.length + (cs.map List.length).sum = numRecords s ∧
      (fl ++ cs.flatten).Perm (List.range (numRecords s)) := by
  have hwf := reachable_wf hs
  obtain ⟨fl, cs, hfl, hcs, hperm0⟩ := hwf.part
  have hperm : (fl ++ cs.flatten).Perm (List.range s.records.length) := by
    simpa using hperm0
  refine ⟨fl, cs, hfl, hcs, ?_, by rw [hwf.numRecords_eq]; exact hperm⟩
  have hl := hperm.length_eq
  rw [List.length_append, List.length_range, List.length_flatten] at hl
  rw [hwf.numRecords_eq]
  exact hl

theorem claim_C3_conservation_witness :
    ∃ fl cs,
      Chain (createFile 16 1).records (createFile 16 1).first_free fl ∧
      List.Forall₂ (fun (e : Entry) c => Chain (createFile 16 1).records e.2.1 c ∧ c ≠ [])
        (createFile 16 1).index cs ∧
      fl.length + (cs.map List.length).sum = numRecords (createFile 16 1) ∧
      (fl ++ cs.flatten).Perm (List.range (numRecords (createFile 16 1))) :=
  claim_C3_conservation (Reachable.create 16 1 (by decide) (by decide) (by decide))

/-- C4 (counterexample): `resize` on a file whose free list is nonempty
rewrites the next-pointer of a pre-existing slot (the free-list tail gets
linked to the first new slot), so "the contents and next-pointer links of
all pre-existing slots are unchanged" fails: slot 0 of a fresh one-slot
file has next-pointer `NO_MORE_RECORDS` before `resize` and `1` after. -/
theorem claim_C4_counterexample :
    numRecords (resize (createFile 16 1)) = 2 * numRecords (createFile 16 1) ∧
    (getSlot (createFile 16 1).records 0).next = NO_MORE_RECORDS ∧
    (getSlot (resize (createFile 16 1)).records 0).next = 1 ∧
    (getSlot (resize (createFile 16 1)).records 0).next ≠
      (getSlot (createFile 16 1).records 0).next := by
  refine ⟨by decide, by decide, by decide, by decide⟩

/-- C4 (amended): after one `resize()` on a well-formed handle the slot
count exactly doubles, the payload regions of all pre-existing slots are
unchanged, the next-pointers of all pre-existing slots are unchanged
*except* the tail of the free list (which is spliced onto the new region
when the free list is nonempty), and every stored key is still retrievable
with its original payload. -/
theorem claim_C4_amended {s : IndexedFile} (hwf : WF s)
    (h2 : 2 * s.records.length < NO_MORE_RECORDS) :
    numRecords (resize s) = 2 * numRecords s ∧
    (∀ i < numRecords s,
      (getSlot (resize s).records i).data = (getSlot s.records i).data) ∧
    (∀ i < numRecords s,
      (s.first_free ≠ NO_MORE_RECORDS →
        some i ≠ last_in_chain s.records s.records.length s.first_free) →
      (getSlot (resize s).records i).next = (getSlot s.records i).next) ∧
    (∀ k, getitem (resize s) k = getitem s k) := by
  obtain ⟨fl, cs, hfl, hcs, hperm0⟩ := hwf.part
  have hperm : (fl ++ cs.flatten).Perm (List.range s.records.length) := by
    simpa using hperm0
  obtain ⟨hrs, _, hlen2, hcsz, _, _, _, hdold, _, hnext, _, _, _⟩ :=
    resize_core hwf h2 hfl hcs hperm
  have hnum := hwf.numRecords_eq
  have hfllen : fl.length ≤ s.records.length := by
    have h' := hperm.length_eq
    rw [List.length_append, List.length_range] at h'
    omega
  refine ⟨?_, ?_, ?_, resize_getitem hwf h2⟩
  · rw [numRecords, hcsz, hrs, hnum,
      Nat.mul_div_cancel _ (by have := hwf.rs8; omega)]
  · intro i hi
    rw [hnum] at hi
    exact hdold i hi
  · intro i hi hne
    rw [hnum] at hi
    refine hnext i hi fun hfne => ?_
    have hffne : s.first_free ≠ NO_MORE_RECORDS := by
      obtain ⟨x, xs, hx⟩ := List.exists_cons_of_ne_nil hfne
      have := (hx ▸ hfl).head_cases
      rw [this.1]
      exact this.2.2.1
    have hlast := last_in_chain_eq hfl hfne s.records.length hfllen
    intro he
    exact (hne hffne) (by rw [hlast, he])

theorem claim_C4_amended_witness :
    (2 * (createFile 16 1).records.length < NO_MORE_RECORDS) ∧
    (numRecords (resize (createFile 16 1)) = 2 * numRecords (createFile 16 1) ∧
      (∀ i < numRecords (createFile 16 1),
        (getSlot (resize (createFile 16 1)).records i).data =
          (getSlot (createFile 16 1).records i).data) ∧
      (∀ i < numRecords (createFile 16 1),
        ((createFile 16 1).first_free ≠ NO_MORE_RECORDS →
          some i ≠ last_in_chain (createFile 16 1).records
            (createFile 16 1).records.length (createFile 16 1).first_free) →
        (getSlot (resize (createFile 16 1)).records i).next =
          (getSlot (createFile 16 1).records i).next) ∧
      (∀ k, getitem (resize (createFile 16 1)) k = getitem (createFile 16 1) k)) :=
  ⟨by decide,
    claim_C4_amended (wf_create (by decide) (by decide) (by decide)) (by decide)⟩

/-- C5 (counterexample): `index_offset = records_offset + num_slots * slot_size`
fails for `create` with a requested slot size below `2 * INTSIZE`: the
constructor clamps the slot size to 8 but computes `current_size` (hence
`index_offset`) from the *unclamped* argument, so `createFile 5 3` has
`index_offset = 31` while `records_offset + num_slots * slot_size = 24`. -/
theorem claim_C5_counterexample :
    (createFile 5 3).index_offset = 31 ∧
    RECORDS_OFFSET + numRecords (createFile 5 3) * (createFile 5 3).recordsize = 24 ∧
    (createFile 5 3).index_offset ≠
      RECORDS_OFFSET + numRecords (createFile 5 3) * (createFile 5 3).recordsize := by
  refine ⟨by decide, by decide, by decide⟩

/-- C5 (amended): for every reachable handle (created with slot size at
least `2 * INTSIZE = 8` and at least one slot, then mutated arbitrarily),
the index begins exactly at the end of the record area:
`index_offset = records_offset + num_slots * slot_size`. -/
theorem claim_C5_amended {s : IndexedFile} (hs : Reachable s) :
    s.index_offset = RECORDS_OFFSET + numRecords s * s.recordsize := by
  have hwf := reachable_wf hs
  rw [hwf.io_eq, hwf.size_eq, hwf.numRecords_eq]
  omega

theorem claim_C5_amended_witness :
    (createFile 512 10).index_offset =
      RECORDS_OFFSET + numRecords (createFile 512 10) * (createFile 512 10).recordsize :=
  claim_C5_amended (Reachable.create 512 10 (by decide) (by decide) (by decide))

/-- C6: overwrite — `set(k, b1)` then `set(k, b2)` yields `get(k) = b2`;
the second `set` first deletes the old entry (releasing its whole chain to
the free list) before reallocating, and afterwards the allocator
conservation equation holds (free-list length plus chain lengths equals
`num_slots`), so overwriting leaks no slots whether `b2` is shorter or
longer than `b1`. -/
theorem claim_C6_overwrite {s : IndexedFile} (hwf : WF s) (k : String)
    (b1 b2 : List Nat)
    (hbig : 2 ^ recordsNeeded b2.length (s.recordsize - INTSIZE) *
      (2 ^ recordsNeeded b1.length (s.recordsize - INTSIZE) * s.records.length)
      < NO_MORE_RECORDS) :
    ∃ s1 s2, setitem s k b1 = some s1 ∧ setitem s1 k b2 = some s2 ∧
      getitem s2 k = some b2 ∧
      containsKey s1.index k = true ∧
      setitem s1 k b2 = (delitem s1 k).bind (fun s0 => setitemRaw s0 k b2) ∧
      ∃ fl cs, Chain s2.records s2.first_free fl ∧
        List.Forall₂ (fun (e : Entry) c => Chain s2.records e.2.1 c ∧ c ≠ [])
          s2.index cs ∧
        fl.length + (cs.map List.length).sum = numRecords s2 := by
  have h1 : 1 ≤ 2 ^ recordsNeeded b2.length (s.recordsize - INTSIZE) :=
    Nat.one_le_two_pow
  obtain ⟨s1, hset1, hwf1, hrs1, _, _, hgrow1, h01, c1, hl1, _, _⟩ :=
    setitem_spec hwf (k := k) (b := b1) (by
      have hpos : 0 < 2 ^ recordsNeeded b2.length (s.recordsize - INTSIZE) :=
        pow_pos (by omega) _
      have hle := Nat.le_mul_of_pos_left
        (2 ^ recordsNeeded b1.length (s.recordsize - INTSIZE) * s.records.length)
        hpos
      omega)
  have hcont1 : containsKey s1.index k = true := lookup_contains hl1
  obtain ⟨s2, hset2, hwf2, _, hget2, _, _, _⟩ :=
    setitem_spec hwf1 (k := k) (b := b2) (by
      rw [hrs1]
      calc 2 ^ recordsNeeded b2.length (s.recordsize - INTSIZE) * s1.records.length
          ≤ 2 ^ recordsNeeded b2.length (s.recordsize - INTSIZE) *
            (2 ^ recordsNeeded b1.length (s.recordsize - INTSIZE) *
              s.records.length) := Nat.mul_le_mul_left _ hgrow1
        _ < NO_MORE_RECORDS := hbig)
  obtain ⟨fl, cs, hfl, hcs, hperm0⟩ := hwf2.part
  have hperm : (fl ++ cs.flatten).Perm (List.range s2.records.length) := by
    simpa using hperm0
  refine ⟨s1, s2, hset1, hset2, hget2, hcont1, ?_, fl, cs, hfl, hcs, ?_⟩
  · rw [setitem, if_pos hcont1]
  · have hl := hperm.length_eq
    rw [List.length_append, List.length_range, List.length_flatten] at hl
    rw [hwf2.numRecords_eq]
    exact hl

theorem claim_C6_overwrite_witness :
    (2 ^ recordsNeeded (List.replicate 30 9 : List Nat).length
        ((createFile 16 4).recordsize - INTSIZE) *
      (2 ^ recordsNeeded ([1, 2] : List Nat).length
          ((createFile 16 4).recordsize - INTSIZE) *
        (createFile 16 4).records.length) < NO_MORE_RECORDS) ∧
    ∃ s1 s2, setitem (createFile 16 4) "a" [1, 2] = some s1 ∧
      setitem s1 "a" (List.replicate 30 9) = some s2 ∧
      getitem s2 "a" = some (List.replicate 30 9) ∧
      containsKey s1.index "a" = true ∧
      setitem s1 "a" (List.replicate 30 9) =
        (delitem s1 "a").bind (fun s0 => setitemRaw s0 "a" (List.replicate 30 9)) ∧
      ∃ fl cs, Chain s2.records s2.first_free fl ∧
        List.Forall₂ (fun (e : Entry) c => Chain s2.records e.2.1 c ∧ c ≠ [])
          s2.index cs ∧
        fl.length + (cs.map List.length).sum = numRecords s2 :=
  ⟨by decide, claim_C6_overwrite (wf_create (by decide) (by decide) (by decide))
    "a" [1, 2] (List.replicate 30 9) (by decide)⟩

/-- C7: deletion — `delete(k)` on an absent key fails (the Python
`KeyError` is raised before any mutation, so the state is unchanged; the
model returns `none`); on a present key it removes the index entry,
flushes the index to disk, and releases the chain (the free-list head
becomes the chain head), after which `contains(k)` is false and `get(k)`
fails. -/
theorem claim_C7_delete {s : IndexedFile} (hwf : WF s) (k : String) :
    (lookupIdx s.index k = none → delitem s k = none) ∧
    (∀ p, lookupIdx s.index k = some p →
      ∃ s', delitem s k = some s' ∧
        s'.index = eraseKey s.index k ∧
        s'.diskIndex = encodeIndex s'.index ∧
        s'.first_free = p.1 ∧
        containsKey s'.index k = false ∧
        getitem s' k = none) := by
  constructor
  · intro h
    rw [delitem, h]
  · intro p hp
    obtain ⟨s', hcomp, _, hidx, _, _, hff, hdisk, hcont, hget⟩ := delitem_spec hwf hp
    exact ⟨s', hcomp, hidx, by rw [hdisk, hidx], hff, hcont, hget⟩

/-- A concrete handle holding one key, used to instantiate theorems whose
hypotheses require a nonempty index. -/
def sampleState : IndexedFile :=
  (setitem (createFile 16 2) "a" [1, 2, 3]).getD (createFile 16 2)

theorem sample_eq : setitem (createFile 16 2) "a" [1, 2, 3] = some sampleState := by
  decide

theorem wf_sample : WF sampleState := by
  obtain ⟨s', hcomp, hwf', _⟩ := setitem_spec (s := createFile 16 2)
    (wf_create (by decide) (by decide) (by decide)) (k := "a") (b := [1, 2, 3])
    (by decide)
  rw [sample_eq] at hcomp
  injection hcomp with h
  rw [h]
  exact hwf'

theorem claim_C7_delete_witness :
    lookupIdx sampleState.index "a" = some (0, 3) ∧
    (lookupIdx sampleState.index "missing" = none → delitem sampleState "missing" = none) ∧
    (∃ s', delitem sampleState "a" = some s' ∧
      s'.index = eraseKey sampleState.index "a" ∧
      s'.diskIndex = encodeIndex s'.index ∧
      s'.first_free = 0 ∧
      containsKey s'.index "a" = false ∧
      getitem s' "a" = none) :=
  ⟨by decide, (claim_C7_delete wf_sample "missing").1,
    (claim_C7_delete wf_sample "a").2 (0, 3) (by decide)⟩

/-- C8: idempotent reopen — closing a well-formed (reachable) handle
(`close` flushes the full index then the zero terminator) and reopening
the underlying file via `open` reconstructs exactly the same handle, so
`keys()` and every `get()` give identical results. -/
theorem claim_C8_reopen {s : IndexedFile} (hs : Reachable s) :
    ∃ s₂, openFile (closeFile s) = some s₂ ∧
      s₂.index.map Prod.fst = s.index.map Prod.fst ∧
      (∀ k, getitem s₂ k = getitem s k) :=
  ⟨s, open_close_id (reachable_wf hs), rfl, fun _ => rfl⟩

theorem claim_C8_reopen_witness :
    ∃ s₂, openFile (closeFile sampleState) = some s₂ ∧
      s₂.index.map Prod.fst = sampleState.index.map Prod.fst ∧
      (∀ k, getitem s₂ k = getitem sampleState k) :=
  claim_C8_reopen (Reachable.set "a" [1, 2, 3]
    (Reachable.create 16 2 (by decide) (by decide) (by decide))
    sample_eq (by decide))

/-- C9: the grow-and-retry loop of `allocate` always resolves the internal
out-of-space condition: on a well-formed handle, a request for `n ≥ 1`
slots returns exactly `n` slot numbers (fuel `n + 1` retries suffice, each
failed attempt being answered by one `resize()`), and `resize` always adds
at least one slot; the out-of-space error never escapes `allocate`. -/
theorem claim_C9_allocate {s : IndexedFile} (hwf : WF s) {n : Nat} (hn : 1 ≤ n)
    (hbig : 2 ^ n * s.records.length < NO_MORE_RECORDS) :
    (∃ l t, allocate s n (n + 1) = some (l, t) ∧ l.length = n) ∧
    numRecords s < numRecords (resize s) := by
  obtain ⟨l, t, hcomp, hout, _⟩ := allocate_spec hwf hn hbig
  have h2 : 2 * s.records.length < NO_MORE_RECORDS := by
    have h2f : 2 ≤ 2 ^ n := by
      calc (2 : Nat) = 2 ^ 1 := by ring
        _ ≤ 2 ^ n := Nat.pow_le_pow_right (by omega) hn
    have := Nat.mul_le_mul_right s.records.length h2f
    omega
  obtain ⟨fl, cs, hfl, hcs, hperm0⟩ := hwf.part
  obtain ⟨hrs, _, _, hcsz, _, _, _, _, _, _, _, _, _⟩ :=
    resize_core hwf h2 hfl hcs (by simpa using hperm0)
  refine ⟨⟨l, t, hcomp, hout.len_n⟩, ?_⟩
  have hnum2 : numRecords (resize s) = 2 * s.records.length := by
    rw [numRecords, hcsz, hrs, Nat.mul_div_cancel _ (by have := hwf.rs8; omega)]
  rw [hnum2, hwf.numRecords_eq]
  have := hwf.pos
  omega

theorem claim_C9_allocate_witness :
    (1 ≤ 3 ∧ 2 ^ 3 * (createFile 16 1).records.length < NO_MORE_RECORDS) ∧
    ((∃ l t, allocate (createFile 16 1) 3 (3 + 1) = some (l, t) ∧ l.length = 3) ∧
      numRecords (createFile 16 1) < numRecords (resize (createFile 16 1))) :=
  ⟨by decide, claim_C9_allocate (wf_create (by decide) (by decide) (by decide))
    (by decide) (by decide)⟩

/-- C10: the constructor's mode validation is the Python substring test
`mode in "rc"` (modelled by `occursIn`/`modeCheck`): the validation raise
site (`.modeError`, line 52 of the source) fires exactly when `mode` is
not a contiguous substring of `"rc"`; in particular the modes `""` and
`"rc"` pass validation, run neither the open branch nor the create branch,
and leave a bare object holding only the empty in-memory index and no
file descriptor (`.bare []`). -/
theorem claim_C10_mode :
    (∀ (mode : String) (fe : Bool) (rs hint : Nat),
      initFile mode fe rs hint = InitOutcome.modeError ↔ modeCheck mode = false) ∧
    (∀ (fe : Bool) (rs hint : Nat), initFile "" fe rs hint = InitOutcome.bare []) ∧
    (∀ (fe : Bool) (rs hint : Nat), initFile "rc" fe rs hint = InitOutcome.bare []) ∧
    modeCheck "" = true ∧ modeCheck "rc" = true ∧ modeCheck "cr" = false := by
  refine ⟨?_, ?_, ?_, by decide, by decide, by decide⟩
  · intro mode fe rs hint
    constructor
    · intro h
      cases hmc : modeCheck mode
      · rfl
      · exfalso
        rw [initFile, if_neg (by simp [hmc])] at h
        by_cases h1 : mode = "r"
        · rw [if_pos h1] at h
          cases fe <;> simp at h
        · rw [if_neg h1] at h
          by_cases h2 : mode = "c"
          · rw [if_pos h2] at h
            simp at h
          · rw [if_neg h2] at h
            simp at h
    · intro h
      rw [initFile, if_pos (by simp [h])]
  · intro fe rs hint
    rfl
  · intro fe rs hint
    rfl

end Indexed
